import Mathlib

/-!
Verification of the `survey` terminal-UI library (Exahilosys/survey).

This file gives a shallow embedding, in Lean 4, of the parts of the Python
source that the specification claims talk about:

* `survey/_core/_ansi.py`   — the ANSI escape-sequence parser and encoder;
* `survey/_core/_render.py` — the line-wrap row arithmetic;
* `survey/_helpers.py`      — text index arithmetic and spot compaction;
* `survey/_mutates.py`      — the `Text` and `Mesh` mutable state models.

Modelling conventions.

Python objects are mutated in place and exceptions abort a method midway
without undoing earlier writes.  Every mutate operation is therefore
embedded as a pure function `state → state × Option Fault`: the returned
state is the state at the moment the method returned or raised, so
"raising leaves the state unchanged" is a real theorem, not a tautology.
`Fault.mutate e` models the library's own `Error` (a `MutateError`);
`Fault.py` models any other Python exception (`IndexError`, `TypeError`,
`KeyError` escaping, `StopIteration`), which the claims never cover.

Python `list` indexing and slicing (negative indices, clamping slice
bounds) are modelled by the `pyGet` / `pySet` / `pySliceGet` / `pySliceSet`
/ `pyPop` / `pyInsertIx` helpers below.  Python `dict` is modelled as an
insertion-ordered association list (`pd*` helpers), matching CPython's
ordered-dict semantics.  Machine integers are `ℤ` (Python ints are
unbounded).  The only floating point the claims reach is the renderer's
`size / limit` true division, modelled exactly as correctly rounded
binary64 division (round to nearest, ties to even, unbounded exponent —
exact for every finite value arising in the claims).
-/

namespace Survey

/-- MutateError variants raised by `survey._mutates.Error` (identified by the
text tag given at each raise site in `_mutates.py`). -/
inductive MErr
  | insufficient_y_space
  | insufficient_x_space
  | insufficient_space
  | searching
  | invalid_search_argument
  | inconsequential_search_argument
  deriving DecidableEq, Repr

/-- Outcome of a Python method that can raise: either a library `MutateError`
or some other Python exception (modelled opaquely). -/
inductive Fault
  | mutate (e : MErr)
  | py
  deriving DecidableEq, Repr

/-! Python list semantics helpers. -/

/-- Normalisation of a Python element index: a negative index counts from the
end of the list.  No clamping — element access with an out-of-range index
raises `IndexError`, which callers surface as `Fault.py`. -/
def pyNormIx (len : ℕ) (i : ℤ) : ℤ :=
  if i < 0 then (len : ℤ) + i else i

/-- Python `l[i]` element read: `some` value, or `none` for `IndexError`. -/
def pyGet {α : Type _} (l : List α) (i : ℤ) : Option α :=
  let j := pyNormIx l.length i
  if 0 ≤ j then l.get? j.toNat else none

/-- Python `l[i] = v` element write at an index already known to be readable
(out-of-range writes leave the list unchanged; every use in this file is
guarded by a successful `pyGet`). -/
def pySet {α : Type _} (l : List α) (i : ℤ) (v : α) : List α :=
  let j := pyNormIx l.length i
  if 0 ≤ j then l.set j.toNat v else l

/-- Normalisation of a Python slice endpoint: negative endpoints count from
the end and everything is clamped into `[0, len]`. -/
def pySliceIx (len : ℕ) (i : ℤ) : ℕ :=
  if i < 0 then ((len : ℤ) + i).toNat else min len i.toNat

/-- Python `l[a:b]` slice read. -/
def pySliceGet {α : Type _} (l : List α) (a b : ℤ) : List α :=
  (l.take (pySliceIx l.length b)).drop (pySliceIx l.length a)

/-- Python `l[a:b] = r` slice assignment: replaces the (possibly empty) slice
with `r`; when the normalised end lies before the start the slice is empty
and `r` is inserted at the start position. -/
def pySliceSet {α : Type _} (l : List α) (a b : ℤ) (r : List α) : List α :=
  let a' := pySliceIx l.length a
  let b' := pySliceIx l.length b
  l.take a' ++ r ++ l.drop (max a' b')

/-- Python `l.pop(i)`: the removed element and the remaining list, or `none`
for `IndexError`. -/
def pyPop {α : Type _} (l : List α) (i : ℤ) : Option (α × List α) :=
  let j := pyNormIx l.length i
  match (if 0 ≤ j then l.get? j.toNat else none) with
  | some v => some (v, l.eraseIdx j.toNat)
  | none => none

/-- Python `l.insert(i, v)`: the insertion position is clamped like a slice
endpoint. -/
def pyInsertIx {α : Type _} (l : List α) (i : ℤ) (v : α) : List α :=
  let j := pySliceIx l.length i
  l.take j ++ v :: l.drop j

/-! The `Text` mutate (`survey._mutates.Text`): a list of lines (each line a
list of rune strings) plus a cursor point `[row, col]`. -/

/-- State owned by `survey._mutates.Text`: the `lines` list and the cursor's
point (a Python `[y, x]` list of ints, modelled as a pair). -/
structure TextState where
  lines : List (List String)
  point : ℤ × ℤ
  deriving DecidableEq, Repr

/-- Translation of `survey._helpers.text_point_to_index`: flatten a (row,
col) cursor point to an index over the whole buffer, each line boundary
counting one extra unit (`lines = lines[:cy]; sum(map(len, lines)) +
len(lines) + cx`). -/
def text_point_to_index (lines : List (List String)) (cy cx : ℤ) : ℤ :=
  let pre := pySliceGet lines 0 cy
  ((pre.map List.length).sum : ℤ) + pre.length + cx

/-- Loop body of `survey._helpers.text_index_to_point`: walk the line sizes,
subtracting `size + 1` per line, stopping when the remainder would go
negative. -/
def idxLoop : List ℕ → ℤ → ℤ → ℤ × ℤ
  | [], cy, ci => (cy, ci)
  | sx :: rest, cy, ci =>
      if ci - ((sx : ℤ) + 1) < 0 then (cy, ci)
      else idxLoop rest (cy + 1) (ci - ((sx : ℤ) + 1))

/-- Translation of `survey._helpers.text_index_to_point`. -/
def text_index_to_point (lines : List (List String)) (ci : ℤ) : ℤ × ℤ :=
  idxLoop (lines.map List.length) 0 ci

/-- Total flat size of the buffer: `sum(map(len, cur_lines)) + len(cur_lines)
- 1` is the maximal index (`max_i` in the source). -/
def textMaxIndex (lines : List (List String)) : ℤ :=
  ((lines.map List.length).sum : ℤ) + lines.length - 1

namespace Text

/-- Translation of `Text._insert`: splice `runes` into the current line at
the cursor column (`cur_line[cur_x:cur_x] = runes`); the cursor does not
move. -/
def insert (s : TextState) (runes : List String) : TextState × Option Fault :=
  let cy := s.point.1
  let cx := s.point.2
  match pyGet s.lines cy with
  | none => (s, some .py)
  | some cur_line =>
      ({ s with lines := pySet s.lines cy (pySliceSet cur_line cx cx runes) }, none)

/-- Translation of `Text._move_y`: bounds-check the new row, clamp the column
to the new line's length when it is shorter. -/
def move_y (s : TextState) (size : ℤ) : TextState × Option Fault :=
  let cy := s.point.1
  let cx := s.point.2
  let new_y := cy + size
  let max_y := (s.lines.length : ℤ) - 1
  if ¬ (0 ≤ new_y ∧ new_y ≤ max_y) then (s, some (.mutate .insufficient_y_space))
  else
    match pyGet s.lines new_y with
    | none => (s, some .py)
    | some new_line =>
        ({ s with point := (new_y, if cx > (new_line.length : ℤ) then (new_line.length : ℤ) else cx) }, none)

/-- Translation of `Text._move_x`: convert the point to a flat index, add
`size`, fail with `insufficient_x_space` outside `[0, max_i]`, convert
back. -/
def move_x (s : TextState) (size : ℤ) : TextState × Option Fault :=
  let cy := s.point.1
  let cx := s.point.2
  let cur_i := text_point_to_index s.lines cy cx
  let new_i := cur_i + size
  if ¬ (0 ≤ new_i ∧ new_i ≤ textMaxIndex s.lines) then (s, some (.mutate .insufficient_x_space))
  else ({ s with point := text_index_to_point s.lines new_i }, none)

/-- Translation of `Text._delete`: forward-delete `size` runes from the
cursor, merging lines when the deletion crosses a line boundary.  The
in-place edits of the aliased current-line object are modelled positionally
at row `cy`; this coincides with Python's aliasing whenever the cursor row
is in range (all theorems below assume a valid cursor). -/
def delete (s : TextState) (size : ℤ) : TextState × Option Fault :=
  let cy := s.point.1
  let cx := s.point.2
  match pyGet s.lines cy with
  | none => (s, some .py)
  | some cur_line =>
      let cur_i := text_point_to_index s.lines cy cx
      let new_i := cur_i + size
      if ¬ (new_i ≤ textMaxIndex s.lines) then (s, some (.mutate .insufficient_x_space))
      else
        let p := text_index_to_point s.lines new_i
        let new_y := p.1
        let new_x := p.2
        if cy ≠ new_y then
          let psh := cy + 1
          let lines₁ := pySliceSet s.lines psh new_y []
          match pyPop lines₁ psh with
          | none => ({ s with lines := lines₁ }, some .py)
          | some (mrg_line, lines₂) =>
              let new_x' := new_x + (cur_line.length : ℤ)
              let line' := cur_line ++ mrg_line
              ({ s with lines := pySet lines₂ cy (pySliceSet line' cx new_x' []) }, none)
        else
          ({ s with lines := pySet s.lines cy (pySliceSet cur_line cx new_x []) }, none)

/-- Translation of `Text._newline`: split the current line at the cursor,
insert the remainder below, move the cursor to its start. -/
def newline (s : TextState) : TextState × Option Fault :=
  let cy := s.point.1
  let cx := s.point.2
  match pyGet s.lines cy with
  | none => (s, some .py)
  | some cur_line =>
      let new_line := pySliceGet cur_line cx (cur_line.length : ℤ)
      let line' := pySliceSet cur_line cx (cur_line.length : ℤ) []
      let psh := cy + 1
      ({ lines := pyInsertIx (pySet s.lines cy line') psh new_line, point := (psh, 0) }, none)

end Text

/-- Validity of a `Text` cursor as stated by the spec's data-model invariant:
`row ∈ [0, len(lines))` and `col ∈ [0, len(lines[row])]`. -/
def TextValid (s : TextState) : Prop :=
  0 ≤ s.point.1 ∧ s.point.1 < (s.lines.length : ℤ) ∧ 0 ≤ s.point.2 ∧
    s.point.2 ≤ (((s.lines.get? s.point.1.toNat).getD []).length : ℤ)

instance : DecidablePred TextValid := by
  intro s
  unfold TextValid
  infer_instance

/-! Arithmetic of the flat-index translation. -/

theorem pyGet_nonneg {α : Type _} (l : List α) (i : ℤ) (h : 0 ≤ i) :
    pyGet l i = l.get? i.toNat := by
  have h1 : ¬ i < 0 := by omega
  simp [pyGet, pyNormIx, h1, h]

theorem pySliceGet_zero (l : List (List String)) (y : ℕ) (hy : y ≤ l.length) :
    pySliceGet l 0 (y : ℤ) = l.take y := by
  have h0 : ¬ ((0 : ℤ) < 0) := by omega
  have h1 : ¬ ((y : ℤ) < 0) := by omega
  simp [pySliceGet, pySliceIx, h0, h1, Nat.min_eq_right hy]

theorem text_point_to_index_nat (lines : List (List String)) (y x : ℕ)
    (hy : y ≤ lines.length) :
    text_point_to_index lines y x
      = ((((lines.take y).map List.length).sum : ℕ) : ℤ) + y + x := by
  unfold text_point_to_index
  rw [pySliceGet_zero lines y hy]
  have hlen : (lines.take y).length = y := by
    rw [List.length_take]
    exact Nat.min_eq_left hy
  show ((((lines.take y).map List.length).sum : ℕ) : ℤ) + ((lines.take y).length : ℤ) + x = _
  rw [hlen]

theorem idxLoop_spec (lens : List ℕ) :
    ∀ (i : ℕ), i < lens.sum + lens.length → ∀ (cy₀ : ℤ),
      ∃ (y x L : ℕ),
        (idxLoop lens cy₀ (i : ℤ)).1 = cy₀ + y
        ∧ (idxLoop lens cy₀ (i : ℤ)).2 = (x : ℤ)
        ∧ lens.get? y = some L ∧ x ≤ L
        ∧ (lens.take y).sum + y + x = i := by
  induction lens with
  | nil =>
      intro i h
      simp at h
  | cons sx rest ih =>
      intro i h cy₀
      by_cases hle : i ≤ sx
      · have hcond : (i : ℤ) - ((sx : ℤ) + 1) < 0 := by omega
        refine ⟨0, i, sx, ?_, ?_, rfl, hle, by simp⟩
        · unfold idxLoop
          rw [if_pos hcond]
          simp
        · unfold idxLoop
          rw [if_pos hcond]
      · have hrec : i - (sx + 1) < rest.sum + rest.length := by
          simp [List.sum_cons] at h
          omega
        obtain ⟨y, x, L, h1, h2, hget, hxL, hsum⟩ := ih (i - (sx + 1)) hrec (cy₀ + 1)
        have hcond : ¬ ((i : ℤ) - ((sx : ℤ) + 1) < 0) := by omega
        have hcast : (i : ℤ) - ((sx : ℤ) + 1) = ((i - (sx + 1) : ℕ) : ℤ) := by omega
        refine ⟨y + 1, x, L, ?_, ?_, hget, hxL, ?_⟩
        · unfold idxLoop
          rw [if_neg hcond, hcast, h1]
          push_cast
          ring
        · unfold idxLoop
          rw [if_neg hcond, hcast, h2]
        · simp only [List.take_succ_cons, List.sum_cons, List.length_cons]
          omega

theorem idxLoop_ptoi (lens : List ℕ) :
    ∀ (y x L : ℕ) (cy₀ : ℤ), lens.get? y = some L → x ≤ L →
      (idxLoop lens cy₀ (((lens.take y).sum + y + x : ℕ) : ℤ)).1 = cy₀ + y
      ∧ (idxLoop lens cy₀ (((lens.take y).sum + y + x : ℕ) : ℤ)).2 = (x : ℤ) := by
  induction lens with
  | nil =>
      intro y x L cy₀ hget
      simp at hget
  | cons sx rest ih =>
      intro y x L cy₀ hget hxL
      cases y with
      | zero =>
          have hL : sx = L := by simpa using hget
          have harg : (((sx :: rest).take 0).sum + 0 + x : ℕ) = x := by simp
          have hcond : (x : ℤ) - ((sx : ℤ) + 1) < 0 := by omega
          constructor
          · rw [harg]
            unfold idxLoop
            rw [if_pos hcond]
            simp
          · rw [harg]
            unfold idxLoop
            rw [if_pos hcond]
      | succ y' =>
          simp only [List.get?_cons_succ] at hget
          obtain ⟨ih1, ih2⟩ := ih y' x L (cy₀ + 1) hget hxL
          have hargN : (((sx :: rest).take (y' + 1)).sum + (y' + 1) + x : ℕ)
              = (sx + 1) + ((rest.take y').sum + y' + x) := by
            simp only [List.take_succ_cons, List.sum_cons]
            omega
          have hcondG : ∀ (a b : ℕ), ¬ ((((a + 1) + b : ℕ) : ℤ) - ((a : ℤ) + 1) < 0) := by
            intro a b
            push_cast
            omega
          have hcastG : ∀ (a b : ℕ), ((((a + 1) + b : ℕ) : ℤ) - ((a : ℤ) + 1)) = ((b : ℕ) : ℤ) := by
            intro a b
            push_cast
            ring
          have hcond := hcondG sx ((rest.take y').sum + y' + x)
          have hcast := hcastG sx ((rest.take y').sum + y' + x)
          constructor
          · rw [hargN]
            unfold idxLoop
            rw [if_neg hcond, hcast, ih1]
            push_cast
            ring
          · rw [hargN]
            unfold idxLoop
            rw [if_neg hcond, hcast, ih2]

theorem ptoiN_lt (lens : List ℕ) :
    ∀ (y x L : ℕ), lens.get? y = some L → x ≤ L →
      (lens.take y).sum + y + x < lens.sum + lens.length := by
  induction lens with
  | nil =>
      intro y x L hget
      simp at hget
  | cons sx rest ih =>
      intro y x L hget hxL
      cases y with
      | zero =>
          have hL : sx = L := by simpa using hget
          simp only [List.take_zero, List.sum_nil, List.sum_cons, List.length_cons]
          omega
      | succ y' =>
          simp only [List.get?_cons_succ] at hget
          have := ih y' x L hget hxL
          simp only [List.take_succ_cons, List.sum_cons, List.length_cons]
          omega

/-- Destructuring of a valid cursor into natural row/column together with the
row it addresses. -/
theorem TextValid.dest {s : TextState} (h : TextValid s) :
    ∃ (y x : ℕ) (L : List String),
      s.point = ((y : ℤ), (x : ℤ)) ∧ s.lines.get? y = some L
      ∧ x ≤ L.length ∧ y < s.lines.length := by
  obtain ⟨h1, h2, h3, h4⟩ := h
  have hy : s.point.1.toNat < s.lines.length := by omega
  cases hh : s.lines.get? s.point.1.toNat with
  | none =>
      exfalso
      have := List.get?_eq_none.1 hh
      omega
  | some L =>
      refine ⟨s.point.1.toNat, s.point.2.toNat, L, ?_, hh, ?_, hy⟩
      · have e1 : s.point.1 = ((s.point.1.toNat : ℕ) : ℤ) := (Int.toNat_of_nonneg h1).symm
        have e2 : s.point.2 = ((s.point.2.toNat : ℕ) : ℤ) := (Int.toNat_of_nonneg h3).symm
        exact Prod.ext_iff.2 ⟨e1, e2⟩
      · rw [hh] at h4
        simp at h4
        omega

/-- Flat index of a valid cursor, expressed over the line-length list. -/
theorem ptoi_of_valid (s : TextState) (y x : ℕ) (L : List String)
    (hp : s.point = ((y : ℤ), (x : ℤ))) (hg : s.lines.get? y = some L)
    (hy : y < s.lines.length) :
    text_point_to_index s.lines s.point.1 s.point.2
      = (((((s.lines.map List.length).take y).sum + y + x : ℕ)) : ℤ) := by
  rw [hp]
  have := text_point_to_index_nat s.lines y x (le_of_lt hy)
  rw [this]
  rw [← List.map_take]
  push_cast
  ring

/-- The flat index of a valid cursor lies in `[0, max_i]`. -/
theorem ptoi_bounds (s : TextState) (h : TextValid s) :
    0 ≤ text_point_to_index s.lines s.point.1 s.point.2
    ∧ text_point_to_index s.lines s.point.1 s.point.2 ≤ textMaxIndex s.lines := by
  obtain ⟨y, x, L, hp, hg, hx, hy⟩ := h.dest
  rw [ptoi_of_valid s y x L hp hg hy]
  have hglen : (s.lines.map List.length).get? y = some L.length := by
    rw [List.get?_map, hg]
    rfl
  have hlt := ptoiN_lt (s.lines.map List.length) y x L.length hglen hx
  unfold textMaxIndex
  have hlen : (s.lines.map List.length).length = s.lines.length := List.length_map _ _
  constructor
  · positivity
  · omega

/-- Success-shape of `Text.move_x`: the guard held, the lines are untouched
and the point is the converted index. -/
theorem move_x_success {s s₁ : TextState} {d : ℤ}
    (h : Text.move_x s d = (s₁, none)) :
    (0 ≤ text_point_to_index s.lines s.point.1 s.point.2 + d
      ∧ text_point_to_index s.lines s.point.1 s.point.2 + d ≤ textMaxIndex s.lines)
    ∧ s₁.lines = s.lines
    ∧ s₁.point = text_index_to_point s.lines (text_point_to_index s.lines s.point.1 s.point.2 + d) := by
  simp only [Text.move_x] at h
  split at h
  · exact absurd (congrArg Prod.snd h) (by simp)
  · next hc =>
      push_neg at hc
      have hs₁ : ({ s with point := text_index_to_point s.lines (text_point_to_index s.lines s.point.1 s.point.2 + d) } : TextState) = s₁ := congrArg Prod.fst h
      subst hs₁
      exact ⟨by omega, rfl, rfl⟩

/-- Successful `Text.move_x` lands on a valid cursor, whose flat index is the
shifted one. -/
theorem move_x_success_valid {s s₁ : TextState} {d : ℤ} (hV : TextValid s)
    (h : Text.move_x s d = (s₁, none)) :
    TextValid s₁ ∧ s₁.lines = s.lines
    ∧ text_point_to_index s₁.lines s₁.point.1 s₁.point.2
        = text_point_to_index s.lines s.point.1 s.point.2 + d := by
  obtain ⟨⟨hlo, hhi⟩, hlines, hpoint⟩ := move_x_success h
  set ni := text_point_to_index s.lines s.point.1 s.point.2 + d with hni
  have hlen : (s.lines.map List.length).length = s.lines.length := List.length_map _ _
  have hnat : ni = ((ni.toNat : ℕ) : ℤ) := by omega
  have hsmall : ni.toNat < (s.lines.map List.length).sum + (s.lines.map List.length).length := by
    unfold textMaxIndex at hhi
    omega
  obtain ⟨y, x, L, hc1, hc2, hget, hxL, hsum⟩ := idxLoop_spec (s.lines.map List.length) ni.toNat hsmall 0
  have hline : ∃ Ls : List String, s.lines.get? y = some Ls ∧ Ls.length = L := by
    rw [List.get?_map] at hget
    cases hl : s.lines.get? y with
    | none => rw [hl] at hget; simp at hget
    | some Ls => rw [hl] at hget; simp at hget; exact ⟨Ls, rfl, hget⟩
  obtain ⟨Ls, hLs, hLslen⟩ := hline
  have hylt : y < s.lines.length := by
    have := (List.get?_eq_some.1 hLs).1
    exact this
  have hpair : idxLoop (s.lines.map List.length) 0 ((ni.toNat : ℕ) : ℤ) = ((0 + (y : ℤ)), (x : ℤ)) :=
    Prod.ext_iff.2 ⟨hc1, hc2⟩
  have hpt : s₁.point = ((y : ℤ), (x : ℤ)) := by
    rw [hpoint]
    unfold text_index_to_point
    rw [hnat, hpair]
    norm_num
  refine ⟨?_, hlines, ?_⟩
  · unfold TextValid
    rw [hpt, hlines]
    refine ⟨Int.natCast_nonneg y, ?_, Int.natCast_nonneg x, ?_⟩
    · show (y : ℤ) < (s.lines.length : ℤ)
      exact_mod_cast hylt
    · show (x : ℤ) ≤ (((s.lines.get? ((y : ℤ)).toNat).getD []).length : ℤ)
      rw [Int.toNat_natCast, hLs]
      have : x ≤ Ls.length := by omega
      exact_mod_cast this
  · have hgets₁ : s₁.lines.get? y = some Ls := by rw [hlines]; exact hLs
    have hys₁ : y < s₁.lines.length := by rw [hlines]; exact hylt
    have := ptoi_of_valid s₁ y x Ls hpt hgets₁ hys₁
    rw [this, hlines, hsum]
    exact Int.toNat_of_nonneg hlo

/-- C5 supporting fact: converting a valid cursor's flat index back yields the
same cursor. -/
theorem itop_ptoi (s : TextState) (hV : TextValid s) :
    text_index_to_point s.lines (text_point_to_index s.lines s.point.1 s.point.2) = s.point := by
  obtain ⟨y, x, L, hp, hg, hx, hy⟩ := hV.dest
  rw [ptoi_of_valid s y x L hp hg hy]
  have hglen : (s.lines.map List.length).get? y = some L.length := by
    rw [List.get?_map, hg]
    rfl
  obtain ⟨h1, h2⟩ := idxLoop_ptoi (s.lines.map List.length) y x L.length 0 hglen hx
  have hpair : idxLoop (s.lines.map List.length) 0
      (((((s.lines.map List.length).take y).sum + y + x : ℕ)) : ℤ) = ((0 + (y : ℤ)), (x : ℤ)) :=
    Prod.ext_iff.2 ⟨h1, h2⟩
  unfold text_index_to_point
  rw [hp, hpair]
  norm_num

/-- Claim C5 — for every `Text` with a valid cursor and every integer `d`:
a successful `move_x d` followed by a successful `move_x (-d)` restores the
original point, and every successful `move_x` or `move_y` lands on a point
that again satisfies `row ∈ [0, len(lines))`, `col ∈ [0, len(lines[row])]`. -/
theorem text_move_roundtrip_and_bounds (s : TextState) (d : ℤ) (hV : TextValid s) :
    (∀ s₁ s₂, Text.move_x s d = (s₁, none) → Text.move_x s₁ (-d) = (s₂, none) → s₂.point = s.point)
    ∧ (∀ s₁, Text.move_x s d = (s₁, none) → TextValid s₁)
    ∧ (∀ s₁, Text.move_y s d = (s₁, none) → TextValid s₁) := by
  refine ⟨?_, ?_, ?_⟩
  · intro s₁ s₂ h1 h2
    obtain ⟨hV₁, hlines₁, hidx₁⟩ := move_x_success_valid hV h1
    obtain ⟨⟨-, -⟩, hlines₂, hpoint₂⟩ := move_x_success h2
    rw [hpoint₂, hidx₁, hlines₁]
    have : text_point_to_index s.lines s.point.1 s.point.2 + d + -d
        = text_point_to_index s.lines s.point.1 s.point.2 := by ring
    rw [this]
    exact itop_ptoi s hV
  · intro s₁ h1
    exact (move_x_success_valid hV h1).1
  · intro s₁ h1
    simp only [Text.move_y] at h1
    split at h1
    · exact absurd (congrArg Prod.snd h1) (by simp)
    · next hc =>
        push_neg at hc
        revert h1
        cases hg : pyGet s.lines (s.point.1 + d) with
        | none =>
            intro h1
            exact absurd (congrArg Prod.snd h1) (by simp)
        | some new_line =>
            intro h1
            have hs₁ : ({ s with point := (s.point.1 + d, if s.point.2 > (new_line.length : ℤ) then (new_line.length : ℤ) else s.point.2) } : TextState) = s₁ :=
              congrArg Prod.fst h1
            subst hs₁
            have hge : 0 ≤ s.point.1 + d := by omega
            rw [pyGet_nonneg _ _ hge] at hg
            obtain ⟨-, -, h3, -⟩ := hV
            unfold TextValid
            refine ⟨?_, ?_, ?_, ?_⟩
            · show (0 : ℤ) ≤ s.point.1 + d
              omega
            · show s.point.1 + d < (s.lines.length : ℤ)
              omega
            · show (0 : ℤ) ≤ if s.point.2 > (new_line.length : ℤ) then (new_line.length : ℤ) else s.point.2
              split
              · positivity
              · omega
            · show (if s.point.2 > (new_line.length : ℤ) then (new_line.length : ℤ) else s.point.2)
                ≤ (((s.lines.get? (s.point.1 + d).toNat).getD []).length : ℤ)
              rw [hg]
              simp only [Option.getD_some]
              split
              · omega
              · omega

/-- Witness for C5: concrete valid one-line buffer, `move_x 1` from column 1
lands on the valid point (0, 2). -/
theorem text_move_roundtrip_and_bounds_witness :
    TextValid ⟨[["a", "b"]], (0, 1)⟩ ∧ TextValid ⟨[["a", "b"]], (0, 2)⟩ :=
  ⟨by decide,
    (text_move_roundtrip_and_bounds ⟨[["a", "b"]], (0, 1)⟩ 1 (by decide)).2.1
      ⟨[["a", "b"]], (0, 2)⟩ (by decide)⟩

/-! The renderer's wrap-row arithmetic (`survey._core/_render.py`).

The source computes `math.floor(size / limit) + 1` where `size / limit` is
Python's true division of two ints: the correctly rounded IEEE-754 binary64
quotient (round to nearest, ties to even).  `floatRound` below is that
rounding, with unbounded exponent — it agrees with binary64 on every input
whose rounded quotient is a finite normal double, which covers everything
the claims evaluate. -/

/-- Nearest integer with ties to even. -/
def roundHalfEven (x : ℚ) : ℤ :=
  let n := ⌊x⌋
  let f := x - n
  if f < 1 / 2 then n
  else if 1 / 2 < f then n + 1
  else if Even n then n else n + 1

/-- Round a positive rational to the binary64 grid: 53 significant bits at
the exponent fixed by the leading power of two (non-positive inputs do not
arise). -/
def floatRound (x : ℚ) : ℚ :=
  if x ≤ 0 then 0
  else
    let e := Int.log 2 x
    ((roundHalfEven (x / 2 ^ (e - 52)) : ℤ) : ℚ) * 2 ^ (e - 52)

/-- Translation of `survey._core._render._get_line_wrap_y`:
`math.floor(size / limit) + 1` with Python's float division of ints. -/
def _get_line_wrap_y (limit size : ℕ) : ℤ :=
  ⌊floatRound ((size : ℚ) / (limit : ℚ))⌋ + 1

theorem roundHalfEven_dist (x : ℚ) : |((roundHalfEven x : ℤ) : ℚ) - x| ≤ 1 / 2 := by
  unfold roundHalfEven
  have h0 : (0 : ℚ) ≤ x - ⌊x⌋ := by
    have := Int.floor_le x
    linarith
  have h1 : x - ⌊x⌋ < 1 := by
    have := Int.lt_floor_add_one x
    linarith
  show |(((if x - (⌊x⌋ : ℚ) < 1 / 2 then ⌊x⌋
      else if 1 / 2 < x - (⌊x⌋ : ℚ) then ⌊x⌋ + 1
      else if Even ⌊x⌋ then ⌊x⌋ else ⌊x⌋ + 1) : ℤ) : ℚ) - x| ≤ 1 / 2
  split
  · next hf =>
      rw [abs_le]
      constructor <;> linarith
  · next hf =>
      push_neg at hf
      split
      · next hg =>
          push_cast
          rw [abs_le]
          constructor <;> linarith
      · next hg =>
          push_neg at hg
          have heq : x - ⌊x⌋ = 1 / 2 := le_antisymm hg hf
          split
          · rw [abs_le]
            constructor <;> linarith
          · push_cast
            rw [abs_le]
            constructor <;> linarith

theorem roundHalfEven_intCast (n : ℤ) : roundHalfEven ((n : ℤ) : ℚ) = n := by
  unfold roundHalfEven
  rw [Int.floor_intCast]
  norm_num

/-- Error bound of the binary64 rounding: at most half an ulp, hence at most
`x / 2 ^ 53` for positive `x`. -/
theorem floatRound_dist (x : ℚ) (hx : 0 < x) : |floatRound x - x| ≤ x / 2 ^ 53 := by
  unfold floatRound
  rw [if_neg (by linarith)]
  show |((roundHalfEven (x / 2 ^ (Int.log 2 x - 52)) : ℤ) : ℚ) * 2 ^ (Int.log 2 x - 52) - x|
      ≤ x / 2 ^ 53
  set e := Int.log 2 x with he
  have hpow : (0 : ℚ) < 2 ^ (e - 52) := by positivity
  have hlow : ((2 : ℕ) : ℚ) ^ e ≤ x := Int.zpow_log_le_self (by norm_num) hx
  push_cast at hlow
  have key := roundHalfEven_dist (x / 2 ^ (e - 52))
  have hdist : |((roundHalfEven (x / 2 ^ (e - 52)) : ℤ) : ℚ) * 2 ^ (e - 52) - x|
      ≤ (1 / 2) * 2 ^ (e - 52) := by
    have hrw : ((roundHalfEven (x / 2 ^ (e - 52)) : ℤ) : ℚ) * 2 ^ (e - 52) - x
        = (((roundHalfEven (x / 2 ^ (e - 52)) : ℤ) : ℚ) - x / 2 ^ (e - 52)) * 2 ^ (e - 52) := by
      field_simp
    rw [hrw, abs_mul, abs_of_pos hpow]
    exact mul_le_mul_of_nonneg_right key (le_of_lt hpow)
  have hhalf : (1 / 2 : ℚ) * 2 ^ (e - 52) = 2 ^ (e - 53) := by
    have harg : e - 52 = (e - 53) + 1 := by ring
    rw [harg, zpow_add₀ (by norm_num : (2 : ℚ) ≠ 0)]
    ring
  have hbound : (2 : ℚ) ^ (e - 53) ≤ x / 2 ^ 53 := by
    have harg : (2 : ℚ) ^ (e - 53) = 2 ^ e / 2 ^ (53 : ℤ) := by
      rw [zpow_sub₀ (by norm_num : (2 : ℚ) ≠ 0)]
    have h53 : ((2 : ℚ) ^ (53 : ℤ)) = (2 : ℚ) ^ (53 : ℕ) := by norm_num
    rw [harg, h53]
    gcongr
  have hchain : (1 / 2 : ℚ) * 2 ^ (e - 52) ≤ x / 2 ^ 53 := by
    rw [hhalf]
    exact hbound
  exact hdist.trans hchain

/-- Integers below `2 ^ 53` are exactly representable: the rounding fixes
them. -/
theorem floatRound_natCast (m : ℕ) (h1 : 1 ≤ m) (h2 : m < 2 ^ 53) :
    floatRound ((m : ℕ) : ℚ) = ((m : ℕ) : ℚ) := by
  unfold floatRound
  have hpos : (0 : ℚ) < ((m : ℕ) : ℚ) := by exact_mod_cast h1
  rw [if_neg (by linarith)]
  show ((roundHalfEven (((m : ℕ) : ℚ) / 2 ^ (Int.log 2 ((m : ℕ) : ℚ) - 52)) : ℤ) : ℚ)
      * 2 ^ (Int.log 2 ((m : ℕ) : ℚ) - 52) = ((m : ℕ) : ℚ)
  set e := Int.log 2 ((m : ℕ) : ℚ) with he
  have he52 : e ≤ 52 := by
    by_contra hcon
    push_neg at hcon
    have hlow : ((2 : ℕ) : ℚ) ^ e ≤ ((m : ℕ) : ℚ) := Int.zpow_log_le_self (by norm_num) hpos
    push_cast at hlow
    have hge : (2 : ℚ) ^ (53 : ℤ) ≤ (2 : ℚ) ^ e := by
      apply zpow_le_zpow_right₀ (by norm_num)
      omega
    have h53 : ((2 : ℚ) ^ (53 : ℤ)) = (((2 ^ 53 : ℕ) : ℕ) : ℚ) := by norm_num
    rw [h53] at hge
    have : ((2 ^ 53 : ℕ) : ℚ) ≤ ((m : ℕ) : ℚ) := le_trans hge hlow
    have := (Nat.cast_le (α := ℚ)).1 this
    omega
  have hk : (((52 - e).toNat : ℕ) : ℤ) = 52 - e := Int.toNat_of_nonneg (by omega)
  have hmain : (2 : ℚ) ^ ((52 - e).toNat : ℕ) * (2 : ℚ) ^ (e - 52) = 1 := by
    rw [← zpow_natCast (2 : ℚ) ((52 - e).toNat), hk, ← zpow_add₀ (by norm_num : (2 : ℚ) ≠ 0)]
    norm_num
  have hsplit : ((m : ℕ) : ℚ) / 2 ^ (e - 52) = (((m : ℤ) * 2 ^ ((52 - e).toNat : ℕ) : ℤ) : ℚ) := by
    push_cast
    rw [div_eq_iff (by positivity : ((2 : ℚ) ^ (e - 52)) ≠ 0)]
    rw [mul_assoc, hmain, mul_one]
  rw [hsplit, roundHalfEven_intCast]
  push_cast
  rw [mul_assoc, hmain, mul_one]

/-- Claim C9 (amended) — for positive `limit` and `size` with
`size < 2 ^ 53`, the renderer's row-count function agrees with exact
integer arithmetic: `_get_line_wrap_y limit size = size / limit + 1`
(integer floor division).  Python's `size / limit` is the correctly rounded
binary64 quotient, which can drop below the exact value once `size` reaches
`2 ^ 53` (see the counterexample). -/
theorem wrap_rows_eq_floor_div (limit size : ℕ) (hl : 0 < limit) (hs : 0 < size)
    (hbound : size < 2 ^ 53) :
    _get_line_wrap_y limit size = ((size / limit : ℕ) : ℤ) + 1 := by
  unfold _get_line_wrap_y
  have hqpos : (0 : ℚ) < (size : ℚ) / (limit : ℚ) := by
    apply div_pos
    · exact_mod_cast hs
    · exact_mod_cast hl
  suffices h : ⌊floatRound ((size : ℚ) / (limit : ℚ))⌋ = ((size / limit : ℕ) : ℤ) by rw [h]
  by_cases hdvd : limit ∣ size
  · have hcast : ((size / limit : ℕ) : ℚ) = (size : ℚ) / (limit : ℚ) :=
      Nat.cast_div hdvd (by exact_mod_cast Nat.pos_iff_ne_zero.1 hl)
    have hm1 : 1 ≤ size / limit := by
      have := Nat.le_of_dvd hs hdvd
      exact (Nat.one_le_div_iff hl).2 this
    have hmlt : size / limit < 2 ^ 53 := lt_of_le_of_lt (Nat.div_le_self _ _) hbound
    rw [← hcast, floatRound_natCast _ hm1 hmlt]
    exact Int.floor_natCast _
  · set n := size / limit with hn
    have hmod : limit * n + size % limit = size := Nat.div_add_mod size limit
    have hrpos : 0 < size % limit := Nat.pos_of_ne_zero (fun hz => hdvd (Nat.dvd_iff_mod_eq_zero.mpr hz))
    have hrlt : size % limit < limit := Nat.mod_lt _ hl
    have hLpos : (0 : ℚ) < (limit : ℚ) := by exact_mod_cast hl
    have hqsplit : (size : ℚ) / (limit : ℚ) = (n : ℚ) + ((size % limit : ℕ) : ℚ) / (limit : ℚ) := by
      rw [div_eq_iff (ne_of_gt hLpos)]
      have hc : ((size : ℕ) : ℚ) = (limit : ℚ) * (n : ℚ) + ((size % limit : ℕ) : ℚ) := by
        exact_mod_cast hmod.symm
      rw [hc]
      field_simp
      ring
    have hr1 : (1 : ℚ) ≤ ((size % limit : ℕ) : ℚ) := by exact_mod_cast hrpos
    have hr2 : ((size % limit : ℕ) : ℚ) + 1 ≤ (limit : ℚ) := by exact_mod_cast hrlt
    have h1L : (1 : ℚ) / (limit : ℚ) ≤ ((size % limit : ℕ) : ℚ) / (limit : ℚ) := by
      gcongr
    have hru : ((size % limit : ℕ) : ℚ) / (limit : ℚ) + 1 / (limit : ℚ) ≤ 1 := by
      have hsum : (((size % limit : ℕ) : ℚ) + 1) / (limit : ℚ) ≤ (limit : ℚ) / (limit : ℚ) := by
        gcongr
      rw [div_self (ne_of_gt hLpos)] at hsum
      rw [div_add_div_same]
      exact hsum
    have hql : (n : ℚ) + 1 / (limit : ℚ) ≤ (size : ℚ) / (limit : ℚ) := by
      rw [hqsplit]
      linarith
    have hqu : (size : ℚ) / (limit : ℚ) + 1 / (limit : ℚ) ≤ (n : ℚ) + 1 := by
      rw [hqsplit]
      linarith
    have hqL : ((size : ℚ) / (limit : ℚ)) * (limit : ℚ) = (size : ℚ) := by
      field_simp
    have hsize : ((size : ℚ) / (limit : ℚ)) / 2 ^ 53 < 1 / (limit : ℚ) := by
      rw [div_lt_div_iff (by positivity) hLpos, hqL]
      have hcast : (size : ℚ) < 2 ^ 53 := by exact_mod_cast hbound
      linarith
    obtain ⟨herr1, herr2⟩ := abs_le.1 (floatRound_dist _ hqpos)
    refine Int.floor_eq_iff.2 ⟨?_, ?_⟩
    · push_cast
      linarith
    · push_cast
      linarith

/-- Counterexample to C9 as stated: at `limit = 1`, `size = 2 ^ 54 + 1` the
float quotient rounds down to `2 ^ 54`, so the function returns
`2 ^ 54 + 1` while exact integer arithmetic gives
`floor(size / limit) + 1 = 2 ^ 54 + 2`. -/
theorem roundHalfEven_of_fract_lt (x : ℚ) (n : ℤ) (hfl : ⌊x⌋ = n)
    (hlt : x - (n : ℚ) < 1 / 2) : roundHalfEven x = n := by
  unfold roundHalfEven
  show (if x - (⌊x⌋ : ℚ) < 1 / 2 then ⌊x⌋
      else if 1 / 2 < x - (⌊x⌋ : ℚ) then ⌊x⌋ + 1
      else if Even ⌊x⌋ then ⌊x⌋ else ⌊x⌋ + 1) = n
  rw [hfl, if_pos hlt]

theorem wrap_rows_magnitude_counterexample :
    _get_line_wrap_y 1 (2 ^ 54 + 1) = 2 ^ 54 + 1
    ∧ (((2 ^ 54 + 1 : ℕ) / 1 : ℕ) : ℤ) + 1 = 2 ^ 54 + 2 := by
  have hcast : ((2 ^ 54 + 1 : ℕ) : ℚ) = (2 ^ 54 + 1 : ℚ) := by
    push_cast
    norm_num
  have hlognat : Nat.log 2 (2 ^ 54 + 1) = 54 :=
    Nat.log_eq_of_pow_le_of_lt_pow (by norm_num) (by norm_num)
  have hlog : Int.log 2 ((2 ^ 54 + 1 : ℚ)) = 54 := by
    rw [← hcast, Int.log_natCast, hlognat]
    norm_num
  have hpos : ¬ ((2 ^ 54 + 1 : ℚ) ≤ 0) := by norm_num
  have hfloor : ⌊((2 ^ 54 + 1 : ℚ)) / 4⌋ = 2 ^ 52 :=
    Int.floor_eq_iff.2 ⟨by push_cast; norm_num, by push_cast; norm_num⟩
  have hr : roundHalfEven ((2 ^ 54 + 1 : ℚ) / 4) = 2 ^ 52 :=
    roundHalfEven_of_fract_lt _ _ hfloor (by push_cast; norm_num)
  have hfl : floatRound ((2 ^ 54 + 1 : ℚ)) = (2 ^ 54 : ℚ) := by
    unfold floatRound
    rw [if_neg hpos]
    show ((roundHalfEven (((2 ^ 54 + 1 : ℚ)) / 2 ^ (Int.log 2 ((2 ^ 54 + 1 : ℚ)) - 52)) : ℤ) : ℚ)
        * 2 ^ (Int.log 2 ((2 ^ 54 + 1 : ℚ)) - 52) = (2 ^ 54 : ℚ)
    rw [hlog]
    have h2 : ((54 : ℤ) - 52) = (2 : ℤ) := by norm_num
    rw [h2]
    have hz : ((2 : ℚ) ^ (2 : ℤ)) = (4 : ℚ) := by norm_num
    rw [hz, hr]
    push_cast
    norm_num
  constructor
  · unfold _get_line_wrap_y
    have hdiv : (((2 ^ 54 + 1 : ℕ) : ℚ)) / (((1 : ℕ)) : ℚ) = ((2 ^ 54 + 1 : ℚ)) := by
      rw [hcast]
      norm_num
    rw [hdiv, hfl]
    have hfli : ⌊(2 ^ 54 : ℚ)⌋ = (2 ^ 54 : ℤ) := by
      norm_num
    rw [hfli]
  · norm_num

/-- Witness for the amended C9 at the docstring example `(5, 8) ↦ 2`. -/
theorem wrap_rows_eq_floor_div_witness :
    _get_line_wrap_y 5 8 = ((8 / 5 : ℕ) : ℤ) + 1 :=
  wrap_rows_eq_floor_div 5 8 (by norm_num) (by norm_num) (by norm_num)

/-! The ANSI parser (`survey/_core/_ansi.py`).

`parse(get)` wraps the caller's `get` in `_parse_stream`, which keeps a
`memo` list of pending characters and refills it from `get` (at most twice
per request); when both attempts leave the memo empty the local `rune` was
never assigned and the `NameError` handler yields `''`.  A stream is
modelled as the list of successive `get()` results (each a list of
characters, possibly empty); once the list is exhausted `get` returns `''`
forever.  `sget` returns `none` exactly when `_parse_stream`'s function
returns `''`.

Every call site of the parser follows `rune = get()` with `bits =
ord(rune)`, and Python's `ord('')` raises `TypeError`; the model therefore
returns `none` (the `TypeError`) whenever `sget` yields `none`.  The
recursion is fueled; the top-level entry supplies one unit of fuel per
character remaining plus one, which is sufficient because every loop
iteration consumes a character or stops. -/

/-- Pending-character state of `_parse_stream`. -/
structure PStream where
  memo : List Char
  items : List (List Char)
  deriving DecidableEq, Repr

/-- One call of the function built by `_parse_stream`: pop the memo if
possible, otherwise refill from up to two `get()` results; an empty result
on both attempts (or refilling without popping) yields `''` (`none`). -/
def sget : PStream → Option Char × PStream
  | ⟨c :: rest, its⟩ => (some c, ⟨rest, its⟩)
  | ⟨[], []⟩ => (none, ⟨[], []⟩)
  | ⟨[], (c :: cs) :: rest⟩ => (some c, ⟨cs, rest⟩)
  | ⟨[], [] :: rest⟩ =>
      match rest with
      | [] => (none, ⟨[], []⟩)
      | t2 :: rest2 => (none, ⟨t2, rest2⟩)

/-- Results of `_ansi._parse`: `Text`, `Control`, `Escape` or `Sequence`. -/
inductive AnsiCode
  | text (rune : Char)
  | control (rune : Char)
  | escape (rune : Char)
  | sequence (rune : Char) (args : List (List Char)) (trail : List Char)
  deriving DecidableEq, Repr

/-- Second loop of `_parse_sequence`: while the current byte is an
intermediate byte (0x20–0x2F) append it to `buffer` and fetch the next.
The source joins the untouched `trail` list, so the returned trail is
always empty — the collected intermediates go into the already-flushed
`buffer`, which is never read again. -/
def parseSeqTrail : ℕ → PStream → List (List Char) → List Char → Char → Option AnsiCode
  | fuel, s, params, buffer, rune =>
      if 32 ≤ rune.toNat ∧ rune.toNat ≤ 47 then
        match fuel with
        | 0 => none
        | fuel' + 1 =>
            match sget s with
            | (none, _) => none
            | (some r, s') => parseSeqTrail fuel' s' params (buffer ++ [rune]) r
      else
        some (.sequence rune params [])

/-- First loop of `_parse_sequence`: collect `;`-separated parameter bytes
(0x30–0x3F), an empty parameter before a separator defaulting to `"0"`;
on the first byte outside that range flush the buffer and enter the trail
loop. -/
def parseSeqParams : ℕ → PStream → List Char → List (List Char) → Option AnsiCode
  | 0, _, _, _ => none
  | fuel' + 1, s, buffer, params =>
      match sget s with
      | (none, _) => none
      | (some rune, s') =>
          if rune.toNat = 59 then
            parseSeqParams fuel' s' [] (params ++ [if buffer.isEmpty then ['0'] else buffer])
          else if 48 ≤ rune.toNat ∧ rune.toNat ≤ 63 then
            parseSeqParams fuel' s' (buffer ++ [rune]) params
          else
            parseSeqTrail fuel' s' (if buffer.isEmpty then params else params ++ [buffer]) [] rune

/-- Translation of `_parse_escape`: `[` introduces a control sequence,
anything else is a bare `Escape`. -/
def parseEscape (fuel : ℕ) (s : PStream) : Option AnsiCode :=
  match sget s with
  | (none, _) => none
  | (some rune, s') =>
      if rune.toNat = 91 then parseSeqParams fuel s' [] []
      else some (.escape rune)

/-- Translation of `_parse` / `parse`: classify the first byte as C0 control
(0–31, 127, with 27 starting an escape) or text. -/
def pyParse (items : List (List Char)) : Option AnsiCode :=
  match sget ⟨[], items⟩ with
  | (none, _) => none
  | (some rune, s') =>
      if rune.toNat ≤ 31 ∨ rune.toNat = 127 then
        if rune.toNat = 27 then parseEscape ((items.map List.length).sum + 1) s'
        else some (.control rune)
      else some (.text rune)

/-- Decimal digit characters, the alphabet of Python's `str` on a
nonnegative int. -/
def digitChar (k : ℕ) : Char :=
  match k with
  | 0 => '0'
  | 1 => '1'
  | 2 => '2'
  | 3 => '3'
  | 4 => '4'
  | 5 => '5'
  | 6 => '6'
  | 7 => '7'
  | 8 => '8'
  | _ => '9'

/-- Fueled decimal rendering (most significant digit first). -/
def pyStrGo : ℕ → ℕ → List Char
  | 0, _ => []
  | f + 1, n => if n < 10 then [digitChar n] else pyStrGo f (n / 10) ++ [digitChar (n % 10)]

/-- Model of Python `str` on a nonnegative int: its decimal digits. -/
def pyStr (n : ℕ) : List Char :=
  pyStrGo (n + 1) n

/-- Python `';'.join(args)` over character lists. -/
def sepJoin : List (List Char) → List Char
  | [] => []
  | [x] => x
  | x :: xs => x ++ ';' :: sepJoin xs

/-- Translation of `_ansi._get_control` (via `_get`): `ESC '[' ['?'] body
code` where `body` joins the decimal forms of the arguments with `;`. -/
def get_control (priv : Bool) (code : List Char) (args : List ℕ) : List Char :=
  ('\x1b' :: '[' :: (if priv then ['?'] else [])) ++ sepJoin (args.map pyStr) ++ code

/-- A stream whose `get` yields one character at a time — "feeding the
characters of a string back into parse". -/
def singles (l : List Char) : List (List Char) :=
  l.map (fun c => [c])

theorem sget_singles_cons (c : Char) (l : List Char) :
    sget ⟨[], singles (c :: l)⟩ = (some c, ⟨[], singles l⟩) := rfl

theorem singles_sum_length (l : List Char) :
    ((singles l).map List.length).sum = l.length := by
  induction l with
  | nil => rfl
  | cons c cs ih => simp [singles] at ih ⊢; omega

theorem digitChar_range (k : ℕ) : 48 ≤ (digitChar k).toNat ∧ (digitChar k).toNat ≤ 57 := by
  unfold digitChar
  split <;> decide

theorem pyStrGo_ne_nil (f n : ℕ) (hf : 0 < f) : pyStrGo f n ≠ [] := by
  cases f with
  | zero => omega
  | succ f' =>
      unfold pyStrGo
      split
      · simp
      · simp

theorem pyStr_ne_nil (n : ℕ) : pyStr n ≠ [] :=
  pyStrGo_ne_nil _ _ (Nat.succ_pos n)

theorem pyStrGo_digits (f : ℕ) : ∀ (n : ℕ) (c : Char), c ∈ pyStrGo f n →
    48 ≤ c.toNat ∧ c.toNat ≤ 57 := by
  induction f with
  | zero =>
      intro n c hc
      simp [pyStrGo] at hc
  | succ f' ih =>
      intro n c hc
      unfold pyStrGo at hc
      split at hc
      · simp at hc
        subst hc
        exact digitChar_range n
      · rw [List.mem_append] at hc
        cases hc with
        | inl h => exact ih _ _ h
        | inr h =>
            simp at h
            subst h
            exact digitChar_range _

theorem pyStr_digits (n : ℕ) : ∀ c ∈ pyStr n, 48 ≤ c.toNat ∧ c.toNat ≤ 57 :=
  fun c hc => pyStrGo_digits _ _ _ hc

theorem sepJoin_cons₂ (x y : List Char) (t : List (List Char)) :
    sepJoin (x :: y :: t) = x ++ ';' :: sepJoin (y :: t) := rfl

/-- The separator step of the parameter loop: flush the buffer (defaulting
an empty one to `"0"`) and continue. -/
theorem parseSeqParams_sep (f : ℕ) (rest buffer : List Char) (params : List (List Char)) :
    parseSeqParams (f + 1) ⟨[], singles (';' :: rest)⟩ buffer params
      = parseSeqParams f ⟨[], singles rest⟩ []
          (params ++ [if buffer.isEmpty then ['0'] else buffer]) := rfl

/-- The parameter loop consumes a run of digit characters into the buffer. -/
theorem parseSeqParams_digits :
    ∀ (d : List Char), (∀ c ∈ d, 48 ≤ c.toNat ∧ c.toNat ≤ 57) →
    ∀ (g : ℕ) (rest buffer : List Char) (params : List (List Char)),
      parseSeqParams (d.length + g) ⟨[], singles (d ++ rest)⟩ buffer params
        = parseSeqParams g ⟨[], singles rest⟩ (buffer ++ d) params := by
  intro d
  induction d with
  | nil =>
      intro _ g rest buffer params
      simp
  | cons c cs ih =>
      intro hd g rest buffer params
      obtain ⟨hc1, hc2⟩ := hd c (by simp)
      have hfuel : (c :: cs).length + g = (cs.length + g) + 1 := by
        simp only [List.length_cons]
        omega
      rw [hfuel, List.cons_append]
      simp only [parseSeqParams, sget_singles_cons]
      rw [if_neg (by omega : ¬ c.toNat = 59)]
      rw [if_pos (⟨hc1, by omega⟩ : 48 ≤ c.toNat ∧ c.toNat ≤ 63)]
      have hrec := ih (fun x hx => hd x (by simp [hx])) g rest (buffer ++ [c]) params
      rw [hrec, List.append_assoc]
      rfl

/-- Hitting a final byte (0x40–0x7E) flushes the buffer, skips the trail
loop and produces the `Sequence`. -/
theorem parseSeqParams_final (c : Char) (h64 : 64 ≤ c.toNat) (h126 : c.toNat ≤ 126)
    (g : ℕ) (rest buffer : List Char) (params : List (List Char)) :
    parseSeqParams (g + 1) ⟨[], singles (c :: rest)⟩ buffer params
      = some (.sequence c (if buffer.isEmpty then params else params ++ [buffer]) []) := by
  simp only [parseSeqParams, sget_singles_cons]
  rw [if_neg (by omega : ¬ c.toNat = 59)]
  rw [if_neg (by omega : ¬ (48 ≤ c.toNat ∧ c.toNat ≤ 63))]
  unfold parseSeqTrail
  rw [if_neg (by omega : ¬ (32 ≤ c.toNat ∧ c.toNat ≤ 47))]

/-- Parameters of an encoded control sequence are parsed back verbatim. -/
theorem parseSeqParams_args :
    ∀ (args : List ℕ) (c : Char), 64 ≤ c.toNat → c.toNat ≤ 126 →
    ∀ (g : ℕ) (params : List (List Char)),
      parseSeqParams ((sepJoin (args.map pyStr)).length + (g + 1))
          ⟨[], singles (sepJoin (args.map pyStr) ++ [c])⟩ [] params
        = some (.sequence c (params ++ args.map pyStr) []) := by
  intro args
  induction args with
  | nil =>
      intro c h64 h126 g params
      simp only [List.map_nil, sepJoin, List.length_nil, List.nil_append, Nat.zero_add]
      rw [parseSeqParams_final c h64 h126 g [] [] params]
      simp
  | cons a rest ih =>
      intro c h64 h126 g params
      have hEm : ¬ ((pyStr a).isEmpty = true) := by
        simp [List.isEmpty_iff, pyStr_ne_nil a]
      cases rest with
      | nil =>
          simp only [List.map_cons, List.map_nil, sepJoin]
          rw [parseSeqParams_digits (pyStr a) (pyStr_digits a) (g + 1) [c] [] params]
          rw [List.nil_append]
          rw [parseSeqParams_final c h64 h126 g [] (pyStr a) params]
          rw [if_neg hEm]
      | cons b rest2 =>
          have hsj : sepJoin (List.map pyStr (a :: b :: rest2))
              = pyStr a ++ ';' :: sepJoin (List.map pyStr (b :: rest2)) := rfl
          rw [hsj]
          have hset : (pyStr a ++ ';' :: sepJoin ((b :: rest2).map pyStr)) ++ [c]
              = pyStr a ++ (';' :: (sepJoin ((b :: rest2).map pyStr) ++ [c])) := by
            simp
          have hf : (pyStr a ++ ';' :: sepJoin ((b :: rest2).map pyStr)).length + (g + 1)
              = (pyStr a).length + (((sepJoin ((b :: rest2).map pyStr)).length + (g + 1)) + 1) := by
            simp only [List.length_append, List.length_cons]
            omega
          rw [hset, hf]
          rw [parseSeqParams_digits (pyStr a) (pyStr_digits a) _
            (';' :: (sepJoin ((b :: rest2).map pyStr) ++ [c])) [] params]
          rw [List.nil_append, parseSeqParams_sep, if_neg hEm]
          rw [ih c h64 h126 g (params ++ [pyStr a])]
          simp

/-- Claim C3 — encode/parse round trip: for every final byte `c` in
0x40–0x7E and every list of nonnegative integer arguments, feeding the
characters of `get_control(c, *args)` (with `private` left false) back into
`parse` yields a `Sequence` whose rune is `c` and whose args are exactly
the decimal string forms of the arguments, in order. -/
theorem get_control_parse_roundtrip (c : Char) (h64 : 64 ≤ c.toNat) (h126 : c.toNat ≤ 126)
    (args : List ℕ) :
    pyParse (singles (get_control false [c] args))
      = some (.sequence c (args.map pyStr) []) := by
  have hchars : get_control false [c] args
      = '\x1b' :: '[' :: (sepJoin (args.map pyStr) ++ [c]) := by
    simp [get_control]
  rw [hchars]
  simp only [pyParse, sget_singles_cons]
  rw [if_pos (by decide : ('\x1b' : Char).toNat ≤ 31 ∨ ('\x1b' : Char).toNat = 127)]
  rw [if_pos (by decide : ('\x1b' : Char).toNat = 27)]
  unfold parseEscape
  simp only [sget_singles_cons]
  rw [if_pos (by decide : ('[' : Char).toNat = 91)]
  rw [singles_sum_length]
  have hf : ('\x1b' :: '[' :: (sepJoin (args.map pyStr) ++ [c])).length + 1
      = (sepJoin (args.map pyStr)).length + (3 + 1) := by
    simp only [List.length_cons, List.length_append, List.length_nil]
  rw [hf]
  rw [parseSeqParams_args args c h64 h126 3 []]
  rw [List.nil_append]

/-- Witness for C3 at `c = 'm'`, `args = [1, 20]`. -/
theorem get_control_parse_roundtrip_witness :
    pyParse (singles (get_control false ['m'] [1, 20]))
      = some (.sequence 'm' ([1, 20].map pyStr) []) :=
  get_control_parse_roundtrip 'm' (by decide) (by decide) [1, 20]

/-- Claim C2 — evaluation of the code at the failing input: a stream whose
first character is ESC and whose subsequent `get()` calls return `''`
makes `parse` raise `TypeError` (`ord('')` in `_parse_escape`) instead of
returning a bare `Escape`; the result `none` is the raised exception. -/
theorem parse_exhausted_raises :
    pyParse [['\x1b']] = none ∧ pyParse [['\x1b'], [], []] = none := by
  constructor
  · rfl
  · rfl

/-- Claim C7 — evaluation of the code at the failing input: parsing
`ESC [ 1 SP m` (one parameter, one intermediate byte 0x20, final byte `m`)
yields a `Sequence` whose trail is empty, because `_parse_sequence` appends
intermediate bytes to the spent `buffer` list and joins the never-filled
`trail` list.  The claim expects trail `" "`. -/
theorem parse_trail_discarded :
    pyParse (singles ['\x1b', '[', '1', ' ', 'm'])
      = some (.sequence 'm' [['1']] []) := by
  rfl

/-! The `Mesh` mutate (`survey._mutates.Mesh`).

Python dicts are insertion ordered; `tiles` and `vision` are modelled as
association lists whose operations (`pd*`) mirror dict semantics: lookup
finds the first matching key, assignment replaces in place or appends,
`pop`/`del` remove the entry.  All reachable dicts have distinct keys, so
first-match lookups and filter-based removal agree with Python.

The tile type is a parameter `τ`; `score`, `scout` and `create` are the
constructor callbacks.  The search sub-mutate is a `TextState`
(`Text(search_lines, search_point)` in the source), `cache` is
`_search_point_cache`, and the cursor point is a pair.

`Mesh._move` ranks candidate spots with floating-point trigonometry
(`get_point_directional`, `get_point_directional_next` in `_helpers.py`,
built on `math.tan` / `math.atan2` / `math.sqrt` / `math.hypot`).  Exact
binary64 trigonometry is outside this embedding; the two selectors are
abstracted as a `Geometry` oracle constrained by the one property every
claim uses, which holds for the source by construction: Python's
`min` / `max` with `default = origin` over the (filtered) candidate list
returns a candidate or the origin — `get_point_directional_next`'s
candidates being `get_point_neighbors origin radius`.  Concrete
instantiations in counterexamples fix the oracle to the values the source
computes at those inputs (robustly away from any rounding boundary). -/

/-- A Mesh spot: integer (row, column). -/
abbrev Spot := ℤ × ℤ

/-- Python `d[k]` on an insertion-ordered dict. -/
def pdGet? {V : Type _} (d : List (Spot × V)) (k : Spot) : Option V :=
  (d.find? (fun p => p.1 = k)).map (·.2)

/-- Python `d[k] = v`: replace in place, or append a new entry. -/
def pdSet {V : Type _} (d : List (Spot × V)) (k : Spot) (v : V) : List (Spot × V) :=
  if (d.find? (fun p => p.1 = k)).isSome then
    d.map (fun p => if p.1 = k then (k, v) else p)
  else d ++ [(k, v)]

/-- Python `d.pop(k)`: the value and the remaining dict, `none` for
`KeyError`. -/
def pdPop {V : Type _} (d : List (Spot × V)) (k : Spot) : Option (V × List (Spot × V)) :=
  match pdGet? d k with
  | none => none
  | some v => some (v, d.filter (fun p => ¬ p.1 = k))

/-- Python `try: del d[k] except KeyError: pass`. -/
def pdDrop {V : Type _} (d : List (Spot × V)) (k : Spot) : List (Spot × V) :=
  d.filter (fun p => ¬ p.1 = k)

/-- Python `d.keys()`. -/
def pdKeys {V : Type _} (d : List (Spot × V)) : List Spot :=
  d.map (·.1)

/-- Python `d.values()`. -/
def pdValues {V : Type _} (d : List (Spot × V)) : List V :=
  d.map (·.2)

/-- Translation of `_helpers.get_point_neighbors`: the ring of spots at
Chebyshev distance `radius` around `origin`, in `itertools.product` order. -/
def get_point_neighbors (o : Spot) (radius : ℕ) : List Spot :=
  let steps := (List.range (2 * radius + 1)).map (fun k => (k : ℤ) - radius)
  ((steps.product steps).filter
    (fun ij => (radius : ℤ) = |ij.1| ∨ (radius : ℤ) = |ij.2|)).map
    (fun ij => (o.1 + ij.1, o.2 + ij.2))

/-- Translation of `_helpers.reverse_direction`. -/
def reverse_direction (d : ℤ) : ℤ :=
  let x := d % 360 - 180
  if x > -180 then x else x + 360

/-- Abstraction of the float-ranked directional selectors (see the section
comment): `next` stands for `get_point_directional_next origin direction
radius`, `pick ignorePoint` for `get_point_directional (min/max) origin
direction targets` (the wrap-around retry passes `ignore_point = True` and
uses `max`).  The membership fields are the defining property of
`min(candidates, key=…, default=origin)`. -/
structure Geometry where
  next : Spot → ℤ → ℕ → Spot
  pick : Bool → Spot → ℤ → List Spot → Spot
  next_mem : ∀ o d r, next o d r ∈ get_point_neighbors o r ∨ next o d r = o
  pick_mem : ∀ b o d ts, pick b o d ts ∈ ts ∨ pick b o d ts = o

/-- Full state and configuration of `survey._mutates.Mesh`: the callbacks
given to the constructor, the `tiles` and `vision` dicts, the search
sub-mutate, the cached pre-search cursor point and the cursor point. -/
structure MeshState (τ : Type _) where
  score : Option (List String → τ → Option ℤ)
  scout : Option (Spot → Bool)
  rigid : Bool
  create : Option (Spot → Option τ)
  clean : Bool
  tiles : List (Spot × τ)
  vision : List (Spot × Spot)
  search : TextState
  cache : Option (ℤ × ℤ)
  point : ℤ × ℤ

namespace Mesh

variable {τ : Type _}

/-- The `_search_line` property: `self._search_lines[self._search_point[0]]`
(`none` models the `IndexError` a malformed search state would raise). -/
def searchLine? (s : MeshState τ) : Option (List String) :=
  pyGet s.search.lines s.search.point.1

/-- The `_vis_spot` property: the cursor's point as a spot. -/
def vis_spot (s : MeshState τ) : Spot :=
  (s.point.1, s.point.2)

/-- Translation of `Mesh._insert` (returned value, raised fault and state):
refuse while searching, return an existing tile, otherwise call the
creator — in `clean` mode clearing `tiles` and `vision` before the
creator's result is examined — and register a created tile under an
identity vision entry. -/
def insert (s : MeshState τ) (spot : Spot) : MeshState τ × Option τ × Option Fault :=
  match searchLine? s with
  | none => (s, none, some .py)
  | some l =>
      if l ≠ [] then (s, none, some (.mutate .searching))
      else
        match pdGet? s.tiles spot with
        | some tile => (s, some tile, none)
        | none =>
            match s.create with
            | none => (s, none, some .py)
            | some create =>
                let tile := create spot
                let tiles₀ := if s.clean then [] else s.tiles
                let vision₀ := if s.clean then [] else s.vision
                match tile with
                | none => ({ s with tiles := tiles₀, vision := vision₀ }, none, none)
                | some t =>
                    ({ s with tiles := pdSet tiles₀ spot t, vision := pdSet vision₀ spot spot },
                      some t, none)

/-- Translation of `Mesh._delete`: refuse while searching; a missing spot is
a silent no-op (`KeyError` caught, returns `None`); otherwise pop the tile
and drop the matching vision entry. -/
def delete (s : MeshState τ) (spot : Spot) : MeshState τ × Option τ × Option Fault :=
  match searchLine? s with
  | none => (s, none, some .py)
  | some l =>
      if l ≠ [] then (s, none, some (.mutate .searching))
      else
        match pdPop s.tiles spot with
        | none => (s, none, none)
        | some (tile, tiles') =>
            ({ s with tiles := tiles', vision := pdDrop s.vision spot }, some tile, none)

/-- Translation of `Mesh._move`: when not searching and a creator exists,
probe the adjacent spot and create it if absent (`fin_spot` is set only
when a tile was actually created); otherwise select among the visible
(scout-filtered) spots, retrying in the reversed direction unless `rigid`,
which instead raises `insufficient_space`. -/
def move (geo : Geometry) (s : MeshState τ) (direction : ℤ) : MeshState τ × Option Fault :=
  match searchLine? s with
  | none => (s, some .py)
  | some l =>
      let probe : MeshState τ × Option Spot × Option Fault :=
        if l = [] then
          match s.create with
          | none => (s, none, none)
          | some _ =>
              let new_spot := geo.next (vis_spot s) direction 1
              if (pdGet? s.tiles new_spot).isSome then (s, none, none)
              else
                match insert s new_spot with
                | (s₁, some _, none) => (s₁, some new_spot, none)
                | (s₁, none, none) => (s₁, none, none)
                | (s₁, _, some f) => (s₁, none, some f)
        else (s, none, none)
      match probe with
      | (s₁, _, some f) => (s₁, some f)
      | (s₁, some fin, none) => ({ s₁ with point := fin }, none)
      | (s₁, none, none) =>
          let may₀ := pdKeys s₁.vision
          let may := match s.scout with
            | none => may₀
            | some sc => may₀.filter sc
          let fin₁ := geo.pick false (vis_spot s) direction may
          if fin₁ = vis_spot s then
            if s.rigid then (s₁, some (.mutate .insufficient_space))
            else ({ s₁ with point := geo.pick true (vis_spot s) (reverse_direction direction) may }, none)
          else ({ s₁ with point := fin₁ }, none)

/-- Descending lexicographic order on `(score, spot)` pairs, the order of
`sorted(assets, reverse=True)` (all pairs are distinct because spots are
dict keys, so stability is irrelevant). -/
def lexLe (a b : ℤ × Spot) : Prop :=
  a.1 < b.1 ∨ (a.1 = b.1 ∧ (a.2.1 < b.2.1 ∨ (a.2.1 = b.2.1 ∧ a.2.2 ≤ b.2.2)))

instance : DecidableRel lexLe := by
  intro a b
  unfold lexLe
  infer_instance

instance : DecidableRel (fun (a b : ℤ × Spot) => lexLe b a) := by
  intro a b
  simp only
  infer_instance

/-- Model of `sorted(assets, reverse=True)`. -/
def sortDesc (l : List (ℤ × Spot)) : List (ℤ × Spot) :=
  l.insertionSort (fun a b => lexLe b a)

/-- Python `set(xs) == set(ys)`. -/
def listSetEq (l₁ l₂ : List Spot) : Bool :=
  l₁.all (· ∈ l₂) && l₂.all (· ∈ l₁)

/-- Bucket accumulation of `_helpers.squeeze_spots` (axis 0, as invoked):
`buckets[cur_a].append(cur_o)` on a `defaultdict` keeps first-encounter
key order. -/
def bucketsAdd (bs : List (ℤ × List ℤ)) (a o : ℤ) : List (ℤ × List ℤ) :=
  if (bs.find? (fun p => p.1 = a)).isSome then
    bs.map (fun p => if p.1 = a then (p.1, p.2 ++ [o]) else p)
  else bs ++ [(a, [o])]

def squeezeBuckets (spots : List Spot) : List (ℤ × List ℤ) :=
  spots.foldl (fun bs sp => bucketsAdd bs sp.1 sp.2) []

/-- Translation of `_helpers.squeeze_spots` at `axis = 0`, `start = 0`,
two-dimensional spots: yields `(cur_spot, new_spot)` pairs where the new
spots take consecutive bucket-rank and within-bucket coordinates. -/
def squeeze_spots (spots : List Spot) : List (Spot × Spot) :=
  ((squeezeBuckets spots).enum).bind (fun x =>
    (x.2.2.enum).map (fun y => (((x.2.1, y.2) : Spot), (((x.1 : ℤ), (y.1 : ℤ)) : Spot))))

/-- The `assets` list of `_search_execute_setup`: `(score, spot)` for every
tile whose score is not `None`, in tiles order. -/
def setupAssets (score : List String → τ → Option ℤ) (tiles : List (Spot × τ))
    (arg : List String) : List (ℤ × Spot) :=
  tiles.filterMap (fun pt => (score arg pt.2).map (fun sc => (sc, pt.1)))

/-- The replacement vision of a successful setup:
`dict(map(reversed, squeeze_spots(0, old_spots)))`. -/
def squeezeVision (old_spots : List Spot) : List (Spot × Spot) :=
  (squeeze_spots old_spots).map (fun cmb => (cmb.2, cmb.1))

/-- The identity vision of `_search_execute_reset`:
`{spot: spot for spot in tiles}`. -/
def resetVision (tiles : List (Spot × τ)) : List (Spot × Spot) :=
  tiles.map (fun pt => (pt.1, pt.1))

/-- Translation of `Mesh._search_execute_setup` and
`Mesh._search_execute_reset` inside `Mesh._search_execute`: snapshot,
run the act on the search sub-mutate, then filter/compact or reset,
rolling back (all but the point cache) when the library raises.  The
`argument` alias is read at the pre-act row, which is the live row because
the search text is single-line. -/
def search_execute (s : MeshState τ) (act : TextState → TextState × Option Fault) :
    MeshState τ × Option Fault :=
  match s.score with
  | none => (s, none)
  | some score =>
      match searchLine? s with
      | none => (s, some .py)
      | some _ =>
          let st := s
          let acted := act s.search
          let s₁ := { s with search := acted.1 }
          match acted.2 with
          | some f => (s₁, some f)
          | none =>
              match pyGet s₁.search.lines s.search.point.1 with
              | none => (s₁, some .py)
              | some arg =>
                  if arg ≠ [] then
                    let cache' := if s₁.cache.isNone then some s₁.point else s₁.cache
                    let assets := setupAssets score s₁.tiles arg
                    if assets = [] then
                      ({ st with cache := cache' }, some (.mutate .invalid_search_argument))
                    else
                      let old_spots := (sortDesc assets).map (·.2)
                      if listSetEq old_spots (pdValues s₁.vision) then
                        ({ st with cache := cache' }, some (.mutate .inconsequential_search_argument))
                      else
                        match (squeezeVision old_spots).head? with
                        | none => ({ s₁ with cache := cache', vision := squeezeVision old_spots }, some .py)
                        | some kv =>
                            ({ s₁ with cache := cache', vision := squeezeVision old_spots, point := kv.1 }, none)
                  else
                    match s₁.cache with
                    | none => ({ s₁ with vision := resetVision s₁.tiles, cache := none }, some .py)
                    | some p => ({ s₁ with vision := resetVision s₁.tiles, cache := none, point := p }, none)

/-- Act of `Mesh._search_insert_act`: insert into the search line, then move
its cursor right by the inserted length. -/
def search_insert_act (runes : List String) (t : TextState) : TextState × Option Fault :=
  let r₁ := Text.insert t runes
  match r₁.2 with
  | some f => (r₁.1, some f)
  | none => Text.move_x r₁.1 (runes.length)

/-- Translation of `Mesh._search_insert`. -/
def search_insert (s : MeshState τ) (runes : List String) : MeshState τ × Option Fault :=
  search_execute s (search_insert_act runes)

/-- Act of `Mesh._search_delete_act`: move the search cursor back by `size`,
then forward-delete `size`. -/
def search_delete_act (size : ℤ) (t : TextState) : TextState × Option Fault :=
  let r₁ := Text.move_x t (-size)
  match r₁.2 with
  | some f => (r₁.1, some f)
  | none => Text.delete r₁.1 size

/-- Translation of `Mesh._search_delete`. -/
def search_delete (s : MeshState τ) (size : ℤ) : MeshState τ × Option Fault :=
  search_execute s (search_delete_act size)

/-- The observable state named by the atomicity claim: tiles, vision, cursor
point and the search line (`_search_point_cache` is deliberately outside
the snapshot: `_get_state` does not capture it). -/
def obs (s : MeshState τ) : List (Spot × τ) × List (Spot × Spot) × (ℤ × ℤ) × Option (List String) :=
  (s.tiles, s.vision, s.point, searchLine? s)

end Mesh

/-- Well-formedness of the search sub-mutate, true of every reachable
`Mesh`: the search text is a single line (`[[]]` at construction; no
operation ever adds a row) with an in-bounds cursor on row 0. -/
def SearchWF {τ : Type _} (s : MeshState τ) : Prop :=
  s.search.lines.length = 1 ∧ s.search.point.1 = 0 ∧ TextValid s.search

theorem SearchWF.destructure {τ : Type _} {s : MeshState τ} (h : SearchWF s) :
    ∃ (row : List String) (cx : ℤ),
      s.search = ⟨[row], (0, cx)⟩ ∧ 0 ≤ cx ∧ cx ≤ (row.length : ℤ) := by
  obtain ⟨h1, h0, hv⟩ := h
  obtain ⟨row, hrow⟩ := List.length_eq_one.1 h1
  refine ⟨row, s.search.point.2, ?_, hv.2.2.1, ?_⟩
  · have hpt : s.search.point = (0, s.search.point.2) := by
      rw [Prod.ext_iff]
      exact ⟨h0, rfl⟩
    calc s.search = ⟨s.search.lines, s.search.point⟩ := rfl
    _ = ⟨[row], (0, s.search.point.2)⟩ := by rw [hrow, hpt]
  · have := hv.2.2.2
    rw [h0] at this
    simp only [Int.toNat_zero] at this
    rw [hrow] at this
    simpa using this

theorem searchLine?_of_wf {τ : Type _} {s : MeshState τ} {row : List String} {cx : ℤ}
    (hs : s.search = ⟨[row], (0, cx)⟩) : Mesh.searchLine? s = some row := by
  unfold Mesh.searchLine?
  rw [hs]
  rfl

/-! Evaluation lemmas for `Text` operations on single-line states, used by
the search sub-mutate. -/

theorem ptoi_single (row : List String) (cx : ℤ) :
    text_point_to_index [row] 0 cx = cx := by
  simp [text_point_to_index, pySliceGet, pySliceIx]

theorem itop_single (row : List String) (i : ℤ) (h : i ≤ (row.length : ℤ)) :
    text_index_to_point [row] i = (0, i) := by
  unfold text_index_to_point idxLoop
  simp only [List.map_cons, List.map_nil]
  rw [if_pos (by omega)]

theorem textMaxIndex_single (row : List String) :
    textMaxIndex [row] = (row.length : ℤ) := by
  simp [textMaxIndex]

theorem move_x_single (row : List String) (cx d : ℤ)
    (h0 : 0 ≤ cx + d) (hle : cx + d ≤ (row.length : ℤ)) :
    Text.move_x ⟨[row], (0, cx)⟩ d = (⟨[row], (0, cx + d)⟩, none) := by
  unfold Text.move_x
  show (if ¬ (0 ≤ text_point_to_index [row] 0 cx + d
      ∧ text_point_to_index [row] 0 cx + d ≤ textMaxIndex [row]) then _ else _) = _
  rw [ptoi_single, textMaxIndex_single]
  rw [if_neg (not_not_intro ⟨h0, hle⟩)]
  rw [itop_single row _ hle]

theorem move_x_single_err (row : List String) (cx d : ℤ)
    (h : ¬ (0 ≤ cx + d ∧ cx + d ≤ (row.length : ℤ))) :
    Text.move_x ⟨[row], (0, cx)⟩ d
      = (⟨[row], (0, cx)⟩, some (.mutate .insufficient_x_space)) := by
  unfold Text.move_x
  show (if ¬ (0 ≤ text_point_to_index [row] 0 cx + d
      ∧ text_point_to_index [row] 0 cx + d ≤ textMaxIndex [row]) then _ else _) = _
  rw [ptoi_single, textMaxIndex_single]
  rw [if_pos h]

theorem insert_single (row : List String) (cx : ℤ) (runes : List String) :
    Text.insert ⟨[row], (0, cx)⟩ runes
      = (⟨[pySliceSet row cx cx runes], (0, cx)⟩, none) := rfl

theorem delete_single (row : List String) (cx size : ℤ)
    (hle : cx + size ≤ (row.length : ℤ)) :
    Text.delete ⟨[row], (0, cx)⟩ size
      = (⟨[pySliceSet row cx (cx + size) []], (0, cx)⟩, none) := by
  unfold Text.delete
  show (match pyGet [row] 0 with
    | none => (TextState.mk [row] (0, cx), some Fault.py)
    | some cur_line => _) = _
  have hg : pyGet ([row] : List (List String)) 0 = some row := rfl
  rw [hg]
  show (if ¬ (text_point_to_index [row] 0 cx + size ≤ textMaxIndex [row]) then _ else _) = _
  rw [ptoi_single, textMaxIndex_single]
  rw [if_neg (not_not_intro hle)]
  show (if (0 : ℤ) ≠ (text_index_to_point [row] (cx + size)).1 then _ else _) = _
  rw [itop_single row _ hle]
  rw [if_neg (by simp)]
  rfl

theorem pySliceSet_insert_length {α : Type _} (l : List α) (cx : ℤ) (r : List α)
    (h0 : 0 ≤ cx) (hle : cx ≤ (l.length : ℤ)) :
    (pySliceSet l cx cx r).length = l.length + r.length := by
  unfold pySliceSet pySliceIx
  rw [if_neg (by omega : ¬ cx < 0)]
  simp only [List.length_append, List.length_take, List.length_drop, max_self]
  omega

/-- The search-insert act on a well-formed single-line state: splice, move
to the end of the insertion, never raise. -/
theorem search_insert_act_ok (row : List String) (cx : ℤ) (runes : List String)
    (h0 : 0 ≤ cx) (hle : cx ≤ (row.length : ℤ)) :
    Mesh.search_insert_act runes ⟨[row], (0, cx)⟩
      = (⟨[pySliceSet row cx cx runes], (0, cx + runes.length)⟩, none) := by
  unfold Mesh.search_insert_act
  rw [insert_single]
  show Text.move_x ⟨[pySliceSet row cx cx runes], (0, cx)⟩ (runes.length : ℤ) = _
  have hlen := pySliceSet_insert_length row cx runes h0 hle
  rw [move_x_single _ _ _ (by omega) (by rw [hlen]; push_cast; omega)]

/-- The search-delete act on a well-formed single-line state: either the
back-move fails (`insufficient_x_space`, state untouched) or it succeeds
and the following delete always succeeds. -/
theorem search_delete_act_cases (row : List String) (cx size : ℤ)
    (h0 : 0 ≤ cx) (hle : cx ≤ (row.length : ℤ)) :
    (¬ (0 ≤ cx - size ∧ cx - size ≤ (row.length : ℤ)) ∧
      Mesh.search_delete_act size ⟨[row], (0, cx)⟩
        = (⟨[row], (0, cx)⟩, some (.mutate .insufficient_x_space)))
    ∨ ((0 ≤ cx - size ∧ cx - size ≤ (row.length : ℤ)) ∧
      Mesh.search_delete_act size ⟨[row], (0, cx)⟩
        = (⟨[pySliceSet row (cx - size) ((cx - size) + size) []], (0, cx - size)⟩, none)) := by
  by_cases hc : 0 ≤ cx - size ∧ cx - size ≤ (row.length : ℤ)
  · right
    refine ⟨hc, ?_⟩
    unfold Mesh.search_delete_act
    have hmv : Text.move_x ⟨[row], (0, cx)⟩ (-size) = (⟨[row], (0, cx - size)⟩, none) := by
      have := move_x_single row cx (-size) (by omega) (by omega)
      rw [show cx + -size = cx - size by ring] at this
      exact this
    rw [hmv]
    show Text.delete ⟨[row], (0, cx - size)⟩ size = _
    rw [delete_single row (cx - size) size (by omega)]
  · left
    refine ⟨hc, ?_⟩
    unfold Mesh.search_delete_act
    have hmv := move_x_single_err row cx (-size) (by rw [show cx + -size = cx - size by ring]; exact hc)
    rw [hmv]

open Mesh

/-! Evaluation lemmas for `Mesh.search_execute` along each branch. -/

theorem search_execute_act_fault {τ : Type _} (s : MeshState τ)
    (score : List String → τ → Option ℤ) (act : TextState → TextState × Option Fault)
    (t₁ : TextState) (ff : Fault) (l₀ : List String)
    (hscore : s.score = some score)
    (hline : Mesh.searchLine? s = some l₀)
    (hact : act s.search = (t₁, some ff)) :
    Mesh.search_execute s act = ({ s with search := t₁ }, some ff) := by
  simp only [Mesh.search_execute, hscore, hline, hact]

theorem search_execute_invalid {τ : Type _} (s : MeshState τ)
    (score : List String → τ → Option ℤ) (act : TextState → TextState × Option Fault)
    (t' : TextState) (arg l₀ : List String)
    (hscore : s.score = some score)
    (hline : Mesh.searchLine? s = some l₀)
    (hact : act s.search = (t', none))
    (hpost : pyGet t'.lines s.search.point.1 = some arg)
    (hne : arg ≠ [])
    (hassets : setupAssets score s.tiles arg = []) :
    Mesh.search_execute s act
      = ({ s with cache := if s.cache.isNone then some s.point else s.cache },
          some (.mutate .invalid_search_argument)) := by
  simp only [Mesh.search_execute, hscore, hline, hact, hpost]
  rw [if_pos hne, if_pos hassets]

theorem search_execute_inconsequential {τ : Type _} (s : MeshState τ)
    (score : List String → τ → Option ℤ) (act : TextState → TextState × Option Fault)
    (t' : TextState) (arg l₀ : List String)
    (hscore : s.score = some score)
    (hline : Mesh.searchLine? s = some l₀)
    (hact : act s.search = (t', none))
    (hpost : pyGet t'.lines s.search.point.1 = some arg)
    (hne : arg ≠ [])
    (hassets : setupAssets score s.tiles arg ≠ [])
    (hset : listSetEq ((sortDesc (setupAssets score s.tiles arg)).map (·.2)) (pdValues s.vision) = true) :
    Mesh.search_execute s act
      = ({ s with cache := if s.cache.isNone then some s.point else s.cache },
          some (.mutate .inconsequential_search_argument)) := by
  simp only [Mesh.search_execute, hscore, hline, hact, hpost]
  rw [if_pos hne, if_neg hassets, if_pos hset]

theorem search_execute_success {τ : Type _} (s : MeshState τ)
    (score : List String → τ → Option ℤ) (act : TextState → TextState × Option Fault)
    (t' : TextState) (arg l₀ : List String) (kv : Spot × Spot)
    (hscore : s.score = some score)
    (hline : Mesh.searchLine? s = some l₀)
    (hact : act s.search = (t', none))
    (hpost : pyGet t'.lines s.search.point.1 = some arg)
    (hne : arg ≠ [])
    (hassets : setupAssets score s.tiles arg ≠ [])
    (hset : listSetEq ((sortDesc (setupAssets score s.tiles arg)).map (·.2)) (pdValues s.vision) = false)
    (hhead : (squeezeVision ((sortDesc (setupAssets score s.tiles arg)).map (·.2))).head? = some kv) :
    Mesh.search_execute s act
      = ({ s with
            search := t'
            cache := (if s.cache.isNone then some s.point else s.cache)
            vision := squeezeVision ((sortDesc (setupAssets score s.tiles arg)).map (·.2))
            point := kv.1 }, none) := by
  simp only [Mesh.search_execute, hscore, hline, hact, hpost]
  rw [if_pos hne, if_neg hassets, if_neg (by rw [hset]; exact Bool.false_ne_true), hhead]

theorem search_execute_reset {τ : Type _} (s : MeshState τ)
    (score : List String → τ → Option ℤ) (act : TextState → TextState × Option Fault)
    (t' : TextState) (l₀ : List String) (p : ℤ × ℤ)
    (hscore : s.score = some score)
    (hline : Mesh.searchLine? s = some l₀)
    (hact : act s.search = (t', none))
    (hpost : pyGet t'.lines s.search.point.1 = some [])
    (hcache : s.cache = some p) :
    Mesh.search_execute s act
      = ({ s with search := t', vision := resetVision s.tiles, cache := none, point := p }, none) := by
  simp only [Mesh.search_execute, hscore, hline, hact, hpost, hcache]
  rw [if_neg (by simp)]

theorem search_execute_reset_nocache {τ : Type _} (s : MeshState τ)
    (score : List String → τ → Option ℤ) (act : TextState → TextState × Option Fault)
    (t' : TextState) (l₀ : List String)
    (hscore : s.score = some score)
    (hline : Mesh.searchLine? s = some l₀)
    (hact : act s.search = (t', none))
    (hpost : pyGet t'.lines s.search.point.1 = some [])
    (hcache : s.cache = none) :
    Mesh.search_execute s act
      = ({ s with search := t', vision := resetVision s.tiles, cache := none }, some .py) := by
  simp only [Mesh.search_execute, hscore, hline, hact, hpost, hcache]
  rw [if_neg (by simp)]

/-! Structural facts about `squeeze_spots`. -/

theorem bucketsAdd_ne_nil (bs : List (ℤ × List ℤ)) (a o : ℤ) : bucketsAdd bs a o ≠ [] := by
  unfold bucketsAdd
  split
  · next hfind =>
      intro hcon
      rw [List.map_eq_nil] at hcon
      subst hcon
      simp at hfind
  · simp

theorem foldl_bucketsAdd_ne_nil :
    ∀ (spots : List Spot) (bs : List (ℤ × List ℤ)), bs ≠ [] →
      spots.foldl (fun bs sp => bucketsAdd bs sp.1 sp.2) bs ≠ [] := by
  intro spots
  induction spots with
  | nil => intro bs h; exact h
  | cons sp rest ih =>
      intro bs _
      exact ih _ (bucketsAdd_ne_nil bs sp.1 sp.2)

theorem squeezeBuckets_ne_nil (spots : List Spot) (h : spots ≠ []) :
    squeezeBuckets spots ≠ [] := by
  cases spots with
  | nil => exact absurd rfl h
  | cons sp rest =>
      unfold squeezeBuckets
      rw [List.foldl_cons]
      exact foldl_bucketsAdd_ne_nil rest _ (bucketsAdd_ne_nil [] sp.1 sp.2)

/-- Every bucket accumulated by `squeeze_spots` holds a nonempty list. -/
def bucketsOk (bs : List (ℤ × List ℤ)) : Prop := ∀ p ∈ bs, p.2 ≠ []

theorem bucketsAdd_ok {bs : List (ℤ × List ℤ)} (h : bucketsOk bs) (a o : ℤ) :
    bucketsOk (bucketsAdd bs a o) := by
  unfold bucketsAdd
  split
  · intro p hp
    rw [List.mem_map] at hp
    obtain ⟨q, hq, hpq⟩ := hp
    by_cases hqa : q.1 = a
    · rw [if_pos hqa] at hpq
      subst hpq
      simp
    · rw [if_neg hqa] at hpq
      subst hpq
      exact h q hq
  · intro p hp
    rw [List.mem_append] at hp
    cases hp with
    | inl hh => exact h p hh
    | inr hh =>
        simp at hh
        subst hh
        simp

theorem foldl_bucketsAdd_ok :
    ∀ (spots : List Spot) (bs : List (ℤ × List ℤ)), bucketsOk bs →
      bucketsOk (spots.foldl (fun bs sp => bucketsAdd bs sp.1 sp.2) bs) := by
  intro spots
  induction spots with
  | nil => intro bs h; exact h
  | cons sp rest ih =>
      intro bs h
      exact ih _ (bucketsAdd_ok h sp.1 sp.2)

theorem squeezeBuckets_ok (spots : List Spot) : bucketsOk (squeezeBuckets spots) :=
  foldl_bucketsAdd_ok spots [] (by intro p hp; simp at hp)

theorem bind_cons_ne_nil {α β : Type _} (f : α → List β) (x : α) (xs : List α)
    (h : f x ≠ []) : (x :: xs).bind f ≠ [] := by
  obtain ⟨y, hy⟩ := List.exists_mem_of_ne_nil (f x) h
  exact List.ne_nil_of_mem (List.mem_bind.2 ⟨x, List.mem_cons_self x xs, hy⟩)

theorem squeeze_spots_ne_nil (spots : List Spot) (h : spots ≠ []) :
    squeeze_spots spots ≠ [] := by
  have hb := squeezeBuckets_ne_nil spots h
  have hok := squeezeBuckets_ok spots
  unfold squeeze_spots
  cases hbk : squeezeBuckets spots with
  | nil => exact absurd hbk hb
  | cons b bs' =>
      have hbne : b.2 ≠ [] := hok b (by rw [hbk]; exact List.mem_cons_self b bs')
      rw [List.enum_cons]
      apply bind_cons_ne_nil
      intro hcon
      have hlen := congrArg List.length hcon
      simp only [List.length_map, List.enum_length, List.length_nil] at hlen
      exact hbne (List.length_eq_zero.1 hlen)

/-- Membership of enumerated buckets: the original-spot component of every
squeeze pair is one of the input spots. -/
def bucketsSub (bs : List (ℤ × List ℤ)) (spots : List Spot) : Prop :=
  ∀ p ∈ bs, ∀ o ∈ p.2, ((p.1, o) : Spot) ∈ spots

theorem bucketsAdd_sub {bs : List (ℤ × List ℤ)} {spots : List Spot}
    (h : bucketsSub bs spots) {a o : ℤ} (hmem : ((a, o) : Spot) ∈ spots) :
    bucketsSub (bucketsAdd bs a o) spots := by
  unfold bucketsAdd
  split
  · intro p hp
    rw [List.mem_map] at hp
    obtain ⟨q, hq, hpq⟩ := hp
    by_cases hqa : q.1 = a
    · rw [if_pos hqa] at hpq
      subst hpq
      intro o' ho'
      simp only at ho'
      rw [List.mem_append] at ho'
      cases ho' with
      | inl hh =>
          exact h q hq o' hh
      | inr hh =>
          simp at hh
          subst hh
          show ((q.1, o') : Spot) ∈ spots
          rw [hqa]
          exact hmem
    · rw [if_neg hqa] at hpq
      subst hpq
      exact h q hq
  · intro p hp
    rw [List.mem_append] at hp
    cases hp with
    | inl hh => exact h p hh
    | inr hh =>
        simp at hh
        subst hh
        intro o' ho'
        simp at ho'
        subst ho'
        exact hmem

theorem foldl_bucketsAdd_sub :
    ∀ (todo : List Spot) (bs : List (ℤ × List ℤ)) (spots : List Spot),
      bucketsSub bs spots → (∀ sp ∈ todo, sp ∈ spots) →
      bucketsSub (todo.foldl (fun bs sp => bucketsAdd bs sp.1 sp.2) bs) spots := by
  intro todo
  induction todo with
  | nil => intro bs spots h _; exact h
  | cons sp rest ih =>
      intro bs spots h hm
      refine ih _ _ (bucketsAdd_sub h ?_) (fun x hx => hm x (by simp [hx]))
      exact hm sp (by simp)

theorem squeezeBuckets_sub (spots : List Spot) : bucketsSub (squeezeBuckets spots) spots :=
  foldl_bucketsAdd_sub spots [] spots (by intro p hp; simp at hp) (fun _ h => h)

theorem squeeze_spots_fst_mem (spots : List Spot) :
    ∀ cmb ∈ squeeze_spots spots, cmb.1 ∈ spots := by
  intro cmb hc
  unfold squeeze_spots at hc
  rw [List.mem_bind] at hc
  obtain ⟨x, hx, hmap⟩ := hc
  rw [List.mem_map] at hmap
  obtain ⟨y, hy, hxy⟩ := hmap
  have hxval : x.2 ∈ squeezeBuckets spots := by
    have := List.mem_enum_iff_getElem?.1 hx
    exact List.getElem?_mem this
  have hyval : y.2 ∈ x.2.2 := by
    have := List.mem_enum_iff_getElem?.1 hy
    exact List.getElem?_mem this
  have := squeezeBuckets_sub spots x.2 hxval y.2 hyval
  rw [← hxy]
  exact this

theorem setupAssets_map_snd {τ : Type _} (score : List String → τ → Option ℤ)
    (tiles : List (Spot × τ)) (arg : List String) :
    (setupAssets score tiles arg).map (·.2)
      = tiles.filterMap (fun pt => if (score arg pt.2).isSome then some pt.1 else none) := by
  induction tiles with
  | nil => rfl
  | cons pt rest ih =>
      simp only [setupAssets, List.filterMap_cons] at ih ⊢
      cases hsc : score arg pt.2 <;> simp [hsc, ih]

theorem sortDesc_map_snd_mem (l : List (ℤ × Spot)) (x : Spot) :
    x ∈ (sortDesc l).map (·.2) ↔ x ∈ l.map (·.2) :=
  ((List.perm_insertionSort _ l).map (·.2)).mem_iff

theorem bool_eq_of_iff {b₁ b₂ : Bool} (h : b₁ = true ↔ b₂ = true) : b₁ = b₂ := by
  cases b₁ <;> cases b₂ <;> simp_all

theorem listSetEq_congr_left {l₁ l₂ v : List Spot} (h : ∀ x, x ∈ l₁ ↔ x ∈ l₂) :
    listSetEq l₁ v = listSetEq l₂ v := by
  unfold listSetEq
  have e1 : (l₁.all fun x => x ∈ v) = (l₂.all fun x => x ∈ v) := by
    apply bool_eq_of_iff
    simp only [List.all_eq_true, decide_eq_true_eq]
    exact ⟨fun hh x hx => hh x ((h x).2 hx), fun hh x hx => hh x ((h x).1 hx)⟩
  have e2 : (v.all fun x => x ∈ l₁) = (v.all fun x => x ∈ l₂) := by
    apply bool_eq_of_iff
    simp only [List.all_eq_true, decide_eq_true_eq]
    exact ⟨fun hh x hx => (h x).1 (hh x hx), fun hh x hx => (h x).2 (hh x hx)⟩
  rw [e1, e2]

/-- The content of the search line after `search_insert` splices `runes` at
the cursor column (the claim's "search line left by the call"). -/
def insertArg {τ : Type _} (s : MeshState τ) (runes : List String) : List String :=
  pySliceSet ((s.search.lines.get? 0).getD []) s.search.point.2 s.search.point.2 runes

/-- The claim's "set of matched real spots": the tiles whose score under the
new search line is not `None`. -/
def matchedSpots {τ : Type _} (f : List String → τ → Option ℤ) (tiles : List (Spot × τ))
    (arg : List String) : List Spot :=
  tiles.filterMap (fun pt => if (f arg pt.2).isSome then some pt.1 else none)

/-- Claim C6 — search rejection conditions: for a mesh with a score function
and at least one tile, a `search_insert` that leaves the search line
non-empty raises `invalid_search_argument` iff the score function returns
`None` for every tile; when at least one tile matches it raises
`inconsequential_search_argument` iff the matched real spots equal (as a
set) the spots currently visible through `vision`; otherwise it succeeds
and replaces `vision` by the compacted mapping from new spots to the
matched original spots. -/
theorem mesh_search_insert_classification {τ : Type _} (s : MeshState τ)
    (f : List String → τ → Option ℤ) (runes : List String)
    (hscore : s.score = some f)
    (hwf : SearchWF s)
    (htiles : s.tiles ≠ [])
    (hne : insertArg s runes ≠ []) :
    ((Mesh.search_insert s runes).2 = some (.mutate .invalid_search_argument)
        ↔ matchedSpots f s.tiles (insertArg s runes) = [])
    ∧ (matchedSpots f s.tiles (insertArg s runes) ≠ [] →
        ((Mesh.search_insert s runes).2 = some (.mutate .inconsequential_search_argument)
          ↔ listSetEq (matchedSpots f s.tiles (insertArg s runes)) (pdValues s.vision) = true))
    ∧ (matchedSpots f s.tiles (insertArg s runes) ≠ [] →
        listSetEq (matchedSpots f s.tiles (insertArg s runes)) (pdValues s.vision) = false →
        (Mesh.search_insert s runes).2 = none
        ∧ (Mesh.search_insert s runes).1.vision
            = squeezeVision ((sortDesc (setupAssets f s.tiles (insertArg s runes))).map (·.2))) := by
  obtain ⟨row, cx, hsearch, hcx0, hcxle⟩ := hwf.destructure
  have hargeq : insertArg s runes = pySliceSet row cx cx runes := by
    unfold insertArg
    rw [hsearch]
    rfl
  set arg := insertArg s runes with harg
  have hline : Mesh.searchLine? s = some row := searchLine?_of_wf hsearch
  have hact : Mesh.search_insert_act runes s.search
      = (⟨[pySliceSet row cx cx runes], (0, cx + runes.length)⟩, none) := by
    rw [hsearch]
    exact search_insert_act_ok row cx runes hcx0 hcxle
  have hpost : pyGet ((⟨[pySliceSet row cx cx runes], (0, cx + runes.length)⟩ : TextState)).lines
      s.search.point.1 = some arg := by
    rw [hsearch, hargeq]
    rfl
  have hrun : Mesh.search_insert s runes
      = Mesh.search_execute s (Mesh.search_insert_act runes) := rfl
  have hmm : (setupAssets f s.tiles arg).map (·.2) = matchedSpots f s.tiles arg :=
    setupAssets_map_snd f s.tiles arg
  have hbridge : listSetEq ((sortDesc (setupAssets f s.tiles arg)).map (·.2)) (pdValues s.vision)
      = listSetEq (matchedSpots f s.tiles arg) (pdValues s.vision) := by
    apply listSetEq_congr_left
    intro x
    rw [← hmm]
    exact sortDesc_map_snd_mem _ x
  by_cases hm : matchedSpots f s.tiles arg = []
  · have hassets : setupAssets f s.tiles arg = [] := by
      have := hmm
      rw [hm] at this
      exact List.map_eq_nil.1 this
    have hres := search_execute_invalid s f (Mesh.search_insert_act runes) _ arg row
      hscore hline hact hpost hne hassets
    rw [hrun, hres]
    refine ⟨by simp [hm], fun hcon => absurd hm hcon, fun hcon => absurd hm hcon⟩
  · have hassets : setupAssets f s.tiles arg ≠ [] := by
      intro hcon
      apply hm
      rw [← hmm, hcon]
      rfl
    by_cases hset : listSetEq (matchedSpots f s.tiles arg) (pdValues s.vision) = true
    · have hres := search_execute_inconsequential s f (Mesh.search_insert_act runes) _ arg row
        hscore hline hact hpost hne hassets (by rw [hbridge]; exact hset)
      rw [hrun, hres]
      refine ⟨by simp [hm], fun _ => by simp [hset], fun _ hcon => absurd hset (by simp [hcon])⟩
    · have hsetf : listSetEq (matchedSpots f s.tiles arg) (pdValues s.vision) = false :=
        Bool.eq_false_iff.2 hset
      have hsorted_ne : (sortDesc (setupAssets f s.tiles arg)).map (·.2) ≠ [] := by
        intro hcon
        have hperm : List.Perm (sortDesc (setupAssets f s.tiles arg)) (setupAssets f s.tiles arg) :=
          List.perm_insertionSort _ _
        have h1 : sortDesc (setupAssets f s.tiles arg) = [] := List.map_eq_nil.1 hcon
        rw [h1] at hperm
        exact hassets (List.Perm.eq_nil hperm.symm)
      have hsq_ne := squeeze_spots_ne_nil _ hsorted_ne
      have hsv_ne : squeezeVision ((sortDesc (setupAssets f s.tiles arg)).map (·.2)) ≠ [] := by
        intro hcon
        apply hsq_ne
        unfold squeezeVision at hcon
        exact List.map_eq_nil.1 hcon
      obtain ⟨kv, rest, hkv⟩ : ∃ kv rest,
          squeezeVision ((sortDesc (setupAssets f s.tiles arg)).map (·.2)) = kv :: rest := by
        cases hc : squeezeVision ((sortDesc (setupAssets f s.tiles arg)).map (·.2)) with
        | nil => exact absurd hc hsv_ne
        | cons kv rest => exact ⟨kv, rest, rfl⟩
      have hhead : (squeezeVision ((sortDesc (setupAssets f s.tiles arg)).map (·.2))).head?
          = some kv := by
        rw [hkv]
        rfl
      have hres := search_execute_success s f (Mesh.search_insert_act runes) _ arg row kv
        hscore hline hact hpost hne hassets (by rw [hbridge]; exact hsetf) hhead
      rw [hrun, hres]
      refine ⟨by simp [hm], fun _ => by simp [hsetf], fun _ _ => ⟨rfl, rfl⟩⟩

def c6score : List String → Unit → Option ℤ := fun _ _ => some 0

def c6state : MeshState Unit :=
  { score := some c6score, scout := none, rigid := false, create := none, clean := false,
    tiles := [(((0 : ℤ), (0 : ℤ)), ())],
    vision := [], search := ⟨[[]], (0, 0)⟩, cache := none, point := (0, 0) }

/-- Witness for C6 at a concrete one-tile mesh with an all-matching score
and empty vision: inserting `"a"` succeeds and installs the compacted
vision. -/
theorem mesh_search_insert_classification_witness :
    (Mesh.search_insert c6state ["a"]).2 = none
    ∧ (Mesh.search_insert c6state ["a"]).1.vision
        = squeezeVision ((sortDesc (setupAssets c6score c6state.tiles
            (insertArg c6state ["a"]))).map (·.2)) :=
  (mesh_search_insert_classification c6state c6score ["a"] rfl
    ⟨rfl, rfl, by decide⟩ (by decide) (by decide)).2.2 (by decide) (by decide)

theorem text_insert_mutate (t : TextState) (runes : List String)
    (r : TextState × Option Fault) (hr : Text.insert t runes = r) (e : MErr)
    (hf : r.2 = some (.mutate e)) : r.1 = t := by
  simp only [Text.insert] at hr
  split at hr
  · rw [← hr] at hf; simp at hf
  · rw [← hr] at hf; simp at hf

theorem text_move_y_mutate (t : TextState) (size : ℤ)
    (r : TextState × Option Fault) (hr : Text.move_y t size = r) (e : MErr)
    (hf : r.2 = some (.mutate e)) : r.1 = t := by
  simp only [Text.move_y] at hr
  split at hr
  · rw [← hr]
  · split at hr
    · rw [← hr] at hf; simp at hf
    · rw [← hr] at hf; simp at hf

theorem text_move_x_mutate (t : TextState) (size : ℤ)
    (r : TextState × Option Fault) (hr : Text.move_x t size = r) (e : MErr)
    (hf : r.2 = some (.mutate e)) : r.1 = t := by
  simp only [Text.move_x] at hr
  split at hr
  · rw [← hr]
  · rw [← hr] at hf; simp at hf

theorem text_delete_mutate (t : TextState) (size : ℤ)
    (r : TextState × Option Fault) (hr : Text.delete t size = r) (e : MErr)
    (hf : r.2 = some (.mutate e)) : r.1 = t := by
  simp only [Text.delete] at hr
  split at hr
  · rw [← hr] at hf; simp at hf
  · split at hr
    · rw [← hr]
    · split at hr
      · split at hr
        · rw [← hr] at hf; simp at hf
        · rw [← hr] at hf; simp at hf
      · rw [← hr] at hf; simp at hf

theorem text_newline_mutate (t : TextState)
    (r : TextState × Option Fault) (hr : Text.newline t = r) (e : MErr)
    (hf : r.2 = some (.mutate e)) : r.1 = t := by
  simp only [Text.newline] at hr
  split at hr
  · rw [← hr] at hf; simp at hf
  · rw [← hr] at hf; simp at hf

theorem mesh_insert_mutate {τ : Type _} (s : MeshState τ) (spot : Spot)
    (r : MeshState τ × Option τ × Option Fault) (hr : Mesh.insert s spot = r) (e : MErr)
    (hf : r.2.2 = some (.mutate e)) : r.1 = s := by
  simp only [Mesh.insert] at hr
  split at hr
  · rw [← hr] at hf; simp at hf
  · split at hr
    · rw [← hr]
    · split at hr
      · rw [← hr] at hf; simp at hf
      · split at hr
        · rw [← hr] at hf; simp at hf
        · split at hr
          · rw [← hr] at hf; simp at hf
          · rw [← hr] at hf; simp at hf

theorem mesh_delete_mutate {τ : Type _} (s : MeshState τ) (spot : Spot)
    (r : MeshState τ × Option τ × Option Fault) (hr : Mesh.delete s spot = r) (e : MErr)
    (hf : r.2.2 = some (.mutate e)) : r.1 = s := by
  simp only [Mesh.delete] at hr
  split at hr
  · rw [← hr] at hf; simp at hf
  · split at hr
    · rw [← hr]
    · split at hr
      · rw [← hr] at hf; simp at hf
      · rw [← hr] at hf; simp at hf

theorem search_execute_mutate_obs {τ : Type _} (s : MeshState τ)
    (act : TextState → TextState × Option Fault)
    (hact : ∀ t' e, act s.search = (t', some (.mutate e)) → t' = s.search)
    (r : MeshState τ × Option Fault) (hr : Mesh.search_execute s act = r)
    (e : MErr) (hf : r.2 = some (.mutate e)) : Mesh.obs r.1 = Mesh.obs s := by
  simp only [Mesh.search_execute] at hr
  split at hr
  · rw [← hr] at hf; simp at hf
  · split at hr
    · rw [← hr] at hf; simp at hf
    · split at hr
      · rename_i f heq
        rw [← hr] at hf ⊢
        simp only at hf ⊢
        have hfe : f = .mutate e := Option.some.inj hf
        subst hfe
        have hpair : act s.search = ((act s.search).1, some (.mutate e)) := by
          rw [← heq]
        have ht' : (act s.search).1 = s.search := hact _ e hpair
        rw [ht']
      · split at hr
        · rw [← hr] at hf; simp at hf
        · split at hr
          · split at hr
            · rw [← hr]; rfl
            · split at hr
              · rw [← hr]; rfl
              · split at hr
                · rw [← hr] at hf; simp at hf
                · rw [← hr] at hf; simp at hf
          · split at hr
            · rw [← hr] at hf; simp at hf
            · rw [← hr] at hf; simp at hf

theorem mesh_move_mutate_obs {τ : Type _} (geo : Geometry) (s : MeshState τ) (d : ℤ)
    (hclean : s.clean = false) (r : MeshState τ × Option Fault)
    (hr : Mesh.move geo s d = r) (e : MErr) (hf : r.2 = some (.mutate e)) :
    Mesh.obs r.1 = Mesh.obs s := by
  simp only [Mesh.move] at hr
  split at hr
  · rw [← hr] at hf; simp at hf
  · rename_i l heq
    by_cases hl : l = []
    · subst hl
      rw [if_pos rfl] at hr
      cases hcreate : s.create with
      | none =>
          rw [hcreate] at hr
          simp only at hr
          cases hscout : s.scout with
          | none =>
              rw [hscout] at hr
              simp only at hr
              split at hr
              · split at hr
                · rw [← hr]
                · rw [← hr] at hf; simp at hf
              · rw [← hr] at hf; simp at hf
          | some sc =>
              rw [hscout] at hr
              simp only at hr
              split at hr
              · split at hr
                · rw [← hr]
                · rw [← hr] at hf; simp at hf
              · rw [← hr] at hf; simp at hf
      | some c =>
          rw [hcreate] at hr
          simp only at hr
          by_cases hmem : (pdGet? s.tiles (geo.next (Mesh.vis_spot s) d 1)).isSome
          · rw [if_pos hmem] at hr
            simp only at hr
            cases hscout : s.scout with
            | none =>
                rw [hscout] at hr
                simp only at hr
                split at hr
                · split at hr
                  · rw [← hr]
                  · rw [← hr] at hf; simp at hf
                · rw [← hr] at hf; simp at hf
            | some sc =>
                rw [hscout] at hr
                simp only at hr
                split at hr
                · split at hr
                  · rw [← hr]
                  · rw [← hr] at hf; simp at hf
                · rw [← hr] at hf; simp at hf
          · rw [if_neg hmem] at hr
            have habs : pdGet? s.tiles (geo.next (Mesh.vis_spot s) d 1) = none :=
              Option.not_isSome_iff_eq_none.1 hmem
            cases hts : c (geo.next (Mesh.vis_spot s) d 1) with
            | none =>
                have hins : Mesh.insert s (geo.next (Mesh.vis_spot s) d 1) = (s, none, none) := by
                  simp [Mesh.insert, heq, habs, hcreate, hts, hclean]
                  rw [← hcreate, ← hclean]
                rw [hins] at hr
                simp only at hr
                cases hscout : s.scout with
                | none =>
                    rw [hscout] at hr
                    simp only at hr
                    split at hr
                    · split at hr
                      · rw [← hr]
                      · rw [← hr] at hf; simp at hf
                    · rw [← hr] at hf; simp at hf
                | some sc =>
                    rw [hscout] at hr
                    simp only at hr
                    split at hr
                    · split at hr
                      · rw [← hr]
                      · rw [← hr] at hf; simp at hf
                    · rw [← hr] at hf; simp at hf
            | some tv =>
                have hins : Mesh.insert s (geo.next (Mesh.vis_spot s) d 1)
                    = ({ s with
                          tiles := pdSet s.tiles (geo.next (Mesh.vis_spot s) d 1) tv
                          vision := pdSet s.vision (geo.next (Mesh.vis_spot s) d 1)
                            (geo.next (Mesh.vis_spot s) d 1) },
                        some tv, none) := by
                  simp [Mesh.insert, heq, habs, hcreate, hts, hclean]
                rw [hins] at hr
                simp only at hr
                rw [← hr] at hf; simp at hf
    · rw [if_neg hl] at hr
      simp only at hr
      cases hscout : s.scout with
      | none =>
          rw [hscout] at hr
          simp only at hr
          split at hr
          · split at hr
            · rw [← hr]
            · rw [← hr] at hf; simp at hf
          · rw [← hr] at hf; simp at hf
      | some sc =>
          rw [hscout] at hr
          simp only at hr
          split at hr
          · split at hr
            · rw [← hr]
            · rw [← hr] at hf; simp at hf
          · rw [← hr] at hf; simp at hf

/-- A concrete geometry oracle: the directional probe stays put and every
directional pick falls back to the origin (the behaviour of
`min(…, default=origin)` on an empty candidate list). -/
def geo0 : Geometry where
  next := fun o _ _ => o
  pick := fun _ o _ _ => o
  next_mem := fun _ _ _ => Or.inr rfl
  pick_mem := fun _ _ _ _ => Or.inr rfl

def c1state : MeshState Unit :=
  { score := none, scout := none, rigid := true,
    create := some (fun _ => none), clean := true,
    tiles := [(((5 : ℤ), (5 : ℤ)), ())],
    vision := [(((5 : ℤ), (5 : ℤ)), ((5 : ℤ), (5 : ℤ)))],
    search := ⟨[[]], (0, 0)⟩, cache := none, point := (0, 0) }

/-- Counterexample to C1 as stated: on a `clean`, `rigid` mesh whose creator
declines, `move` raises `insufficient_space` yet leaves `tiles` cleared by
the probe insert instead of equal to its pre-call value. -/
theorem mutate_error_atomicity_counterexample :
    (Mesh.move geo0 c1state 0).2 = some (.mutate .insufficient_space)
    ∧ (Mesh.move geo0 c1state 0).1.tiles = ([] : List (Spot × Unit))
    ∧ c1state.tiles = [(((5 : ℤ), (5 : ℤ)), ())] :=
  ⟨rfl, rfl, rfl⟩

/-- Claim C1 (amended) — atomicity of mutate errors: every Text operation
that raises a `MutateError` leaves its state exactly as before the call;
Mesh `insert` and `delete` likewise; Mesh `move` preserves the observable
state (tiles, vision, cursor, search line) on a `MutateError` provided the
mesh is not in `clean` mode; and `search_insert`/`search_delete` on a
well-formed search state preserve the observable state on a `MutateError`.
(`clean` is excluded for `move` because its probe insert clears tiles and
vision before the creator declines — see the counterexample.) -/
theorem mutate_error_atomicity {τ : Type _} (geo : Geometry) (t : TextState)
    (s : MeshState τ) (runes : List String) (size d : ℤ) (spot : Spot) (e : MErr)
    (hwf : SearchWF s) :
    ((Text.insert t runes).2 = some (.mutate e) → (Text.insert t runes).1 = t)
    ∧ ((Text.move_y t size).2 = some (.mutate e) → (Text.move_y t size).1 = t)
    ∧ ((Text.move_x t size).2 = some (.mutate e) → (Text.move_x t size).1 = t)
    ∧ ((Text.delete t size).2 = some (.mutate e) → (Text.delete t size).1 = t)
    ∧ ((Text.newline t).2 = some (.mutate e) → (Text.newline t).1 = t)
    ∧ ((Mesh.insert s spot).2.2 = some (.mutate e) → (Mesh.insert s spot).1 = s)
    ∧ ((Mesh.delete s spot).2.2 = some (.mutate e) → (Mesh.delete s spot).1 = s)
    ∧ (s.clean = false → (Mesh.move geo s d).2 = some (.mutate e) →
        Mesh.obs (Mesh.move geo s d).1 = Mesh.obs s)
    ∧ ((Mesh.search_insert s runes).2 = some (.mutate e) →
        Mesh.obs (Mesh.search_insert s runes).1 = Mesh.obs s)
    ∧ ((Mesh.search_delete s size).2 = some (.mutate e) →
        Mesh.obs (Mesh.search_delete s size).1 = Mesh.obs s) := by
  obtain ⟨row, cx, hsearch, hcx0, hcxle⟩ := hwf.destructure
  have hact_ins : ∀ t' e', Mesh.search_insert_act runes s.search = (t', some (.mutate e')) →
      t' = s.search := by
    intro t' e' h
    rw [hsearch, search_insert_act_ok row cx runes hcx0 hcxle] at h
    injection h with h1 h2
    exact absurd h2 (by simp)
  have hact_del : ∀ t' e', Mesh.search_delete_act size s.search = (t', some (.mutate e')) →
      t' = s.search := by
    intro t' e' h
    rcases search_delete_act_cases row cx size hcx0 hcxle with ⟨-, hcase⟩ | ⟨-, hcase⟩
    · rw [hsearch, hcase] at h
      injection h with h1 h2
      rw [← h1, hsearch]
    · rw [hsearch, hcase] at h
      injection h with h1 h2
      exact absurd h2 (by simp)
  refine ⟨fun hf => text_insert_mutate t runes _ rfl e hf,
    fun hf => text_move_y_mutate t size _ rfl e hf,
    fun hf => text_move_x_mutate t size _ rfl e hf,
    fun hf => text_delete_mutate t size _ rfl e hf,
    fun hf => text_newline_mutate t _ rfl e hf,
    fun hf => mesh_insert_mutate s spot _ rfl e hf,
    fun hf => mesh_delete_mutate s spot _ rfl e hf,
    fun hc hf => mesh_move_mutate_obs geo s d hc _ rfl e hf,
    fun hf => search_execute_mutate_obs s _ hact_ins _ rfl e hf,
    fun hf => search_execute_mutate_obs s _ hact_del _ rfl e hf⟩

def c1wstate : MeshState Unit :=
  { score := some (fun _ _ => some 0), scout := none, rigid := false, create := none,
    clean := false, tiles := [(((0 : ℤ), (0 : ℤ)), ())],
    vision := [(((0 : ℤ), (0 : ℤ)), ((0 : ℤ), (0 : ℤ)))],
    search := ⟨[[]], (0, 0)⟩, cache := none, point := (0, 0) }

/-- Witness for the amended C1 at a concrete mesh: a `search_delete` from an
empty search line raises a `MutateError` and preserves the observable
state. -/
theorem mutate_error_atomicity_witness :
    SearchWF c1wstate
    ∧ ((Mesh.search_delete c1wstate 1).2 = some (.mutate .insufficient_x_space) →
        Mesh.obs (Mesh.search_delete c1wstate 1).1 = Mesh.obs c1wstate) :=
  ⟨⟨rfl, rfl, by decide⟩,
    (mutate_error_atomicity geo0 ⟨[[]], (0, 0)⟩ c1wstate [] 1 0 (0, 0)
      .insufficient_x_space ⟨rfl, rfl, by decide⟩).2.2.2.2.2.2.2.2.2⟩

/-- The invariant stated by the claim: the cursor's visible spot has a
vision entry whose real spot is a tiles key. -/
def CursorInv {τ : Type _} (s : MeshState τ) : Prop :=
  ∃ rs, pdGet? s.vision (Mesh.vis_spot s) = some rs ∧ rs ∈ pdKeys s.tiles

/-- The strengthened, inductive invariant of a reachable `Mesh`: a
well-formed search state, the claim's cursor condition, vision values are
tiles keys, vision is the identity dict over tiles whenever no search is
active, the cached pre-search point is a tiles key, and a cache is present
whenever a search is active. -/
def MeshInv {τ : Type _} (s : MeshState τ) : Prop :=
  SearchWF s
  ∧ CursorInv s
  ∧ (∀ p ∈ s.vision, p.2 ∈ pdKeys s.tiles)
  ∧ (Mesh.searchLine? s = some [] → s.vision = resetVision s.tiles)
  ∧ (∀ p : ℤ × ℤ, s.cache = some p → p ∈ pdKeys s.tiles)
  ∧ (∀ l, Mesh.searchLine? s = some l → l ≠ [] → s.cache ≠ none)

theorem pdGet?_mem {V : Type _} {d : List (Spot × V)} {k : Spot} {v : V}
    (h : pdGet? d k = some v) : (k, v) ∈ d := by
  unfold pdGet? at h
  obtain ⟨q, hq, hv⟩ := Option.map_eq_some'.1 h
  have hmem := List.mem_of_find?_eq_some hq
  have hkey : q.1 = k := by simpa using List.find?_some hq
  have hqe : q = (k, v) := Prod.ext hkey hv
  rwa [hqe] at hmem

theorem mem_keys_of_pdGet? {V : Type _} {d : List (Spot × V)} {k : Spot} {v : V}
    (h : pdGet? d k = some v) : k ∈ pdKeys d :=
  List.mem_map.2 ⟨(k, v), pdGet?_mem h, rfl⟩

theorem pdGet?_isSome_of_mem_keys {V : Type _} {d : List (Spot × V)} {k : Spot}
    (h : k ∈ pdKeys d) : ∃ v, pdGet? d k = some v := by
  obtain ⟨q, hq, hk⟩ := List.mem_map.1 h
  have hs : (d.find? (fun p => p.1 = k)).isSome := by
    rw [List.find?_isSome]
    exact ⟨q, hq, by simp [hk]⟩
  obtain ⟨q', hq'⟩ := Option.isSome_iff_exists.1 hs
  exact ⟨q'.2, by unfold pdGet?; rw [hq']; rfl⟩

theorem find?_map_replace_self {V : Type _} (d : List (Spot × V)) (k : Spot) (v : V)
    (hf : ∃ q ∈ d, q.1 = k) :
    pdGet? (d.map (fun p => if p.1 = k then (k, v) else p)) k = some v := by
  induction d with
  | nil =>
      obtain ⟨q, hq, _⟩ := hf
      simp at hq
  | cons q rest ih =>
      by_cases hq : q.1 = k
      · simp [pdGet?, List.find?_cons, hq]
      · obtain ⟨q0, hq0mem, hq0⟩ := hf
        rcases List.mem_cons.1 hq0mem with rfl | hmem
        · exact absurd hq0 hq
        · simpa [pdGet?, List.find?_cons, hq] using ih ⟨q0, hmem, hq0⟩

theorem find?_map_replace_ne {V : Type _} (d : List (Spot × V)) (k : Spot) (v : V)
    (k' : Spot) (h : k' ≠ k) :
    pdGet? (d.map (fun p => if p.1 = k then (k, v) else p)) k' = pdGet? d k' := by
  unfold pdGet?
  induction d with
  | nil => rfl
  | cons q rest ih =>
      rw [List.map_cons]
      by_cases hq : q.1 = k
      · have hq' : ¬ q.1 = k' := by rw [hq]; exact Ne.symm h
        rw [if_pos hq]
        rw [List.find?_cons_of_neg _ (by simp; exact Ne.symm h),
          List.find?_cons_of_neg _ (by simp [hq'])]
        exact ih
      · rw [if_neg hq]
        by_cases hq' : q.1 = k'
        · rw [List.find?_cons_of_pos _ (by simp [hq']),
            List.find?_cons_of_pos _ (by simp [hq'])]
        · rw [List.find?_cons_of_neg _ (by simp [hq']),
            List.find?_cons_of_neg _ (by simp [hq'])]
          exact ih

theorem pdGet?_pdSet_self {V : Type _} (d : List (Spot × V)) (k : Spot) (v : V) :
    pdGet? (pdSet d k v) k = some v := by
  unfold pdSet
  split
  · rename_i hf
    obtain ⟨q, hqmem, hq⟩ := List.find?_isSome.1 hf
    exact find?_map_replace_self d k v ⟨q, hqmem, by simpa using hq⟩
  · rename_i hf
    have hnone : d.find? (fun p => p.1 = k) = none := by
      cases hfd : d.find? (fun p => p.1 = k) with
      | none => rfl
      | some q => rw [hfd] at hf; simp at hf
    clear hf
    induction d with
    | nil => simp [pdGet?]
    | cons q rest ih =>
        rw [List.find?_cons] at hnone
        cases hdq : (decide (q.1 = k)) with
        | true => rw [hdq] at hnone; simp at hnone
        | false =>
            rw [hdq] at hnone
            simpa [pdGet?, List.find?_cons, hdq] using ih hnone

theorem pdGet?_pdSet_ne {V : Type _} (d : List (Spot × V)) (k : Spot) (v : V)
    (k' : Spot) (h : k' ≠ k) :
    pdGet? (pdSet d k v) k' = pdGet? d k' := by
  unfold pdSet
  split
  · exact find?_map_replace_ne d k v k' h
  · rename_i hf
    clear hf
    unfold pdGet?
    induction d with
    | nil =>
        rw [List.nil_append]
        rw [List.find?_cons_of_neg _ (by simp; exact Ne.symm h)]
    | cons q rest ih =>
        rw [List.cons_append]
        by_cases hq' : q.1 = k'
        · rw [List.find?_cons_of_pos _ (by simp [hq']),
            List.find?_cons_of_pos _ (by simp [hq'])]
        · rw [List.find?_cons_of_neg _ (by simp [hq']),
            List.find?_cons_of_neg _ (by simp [hq'])]
          exact ih

theorem mem_keys_pdSet_of_mem {V : Type _} (d : List (Spot × V)) (k : Spot) (v : V)
    {x : Spot} (h : x ∈ pdKeys d) : x ∈ pdKeys (pdSet d k v) := by
  unfold pdSet
  obtain ⟨q, hq, hx⟩ := List.mem_map.1 h
  split
  · by_cases hqk : q.1 = k
    · refine List.mem_map.2 ⟨(k, v), List.mem_map.2 ⟨q, hq, by simp [hqk]⟩, ?_⟩
      simp [← hx, hqk]
    · exact List.mem_map.2 ⟨q, List.mem_map.2 ⟨q, hq, by simp [hqk]⟩, hx⟩
  · exact List.mem_map.2 ⟨q, List.mem_append_left _ hq, hx⟩

theorem mem_keys_pdSet_self {V : Type _} (d : List (Spot × V)) (k : Spot) (v : V) :
    k ∈ pdKeys (pdSet d k v) :=
  mem_keys_of_pdGet? (pdGet?_pdSet_self d k v)

theorem mem_pdSet {V : Type _} {d : List (Spot × V)} {k : Spot} {v : V}
    {p : Spot × V} (h : p ∈ pdSet d k v) : p = (k, v) ∨ p ∈ d := by
  unfold pdSet at h
  split at h
  · obtain ⟨q, hq, hpq⟩ := List.mem_map.1 h
    by_cases hqk : q.1 = k
    · left; rw [← hpq, if_pos hqk]
    · right; rw [← hpq, if_neg hqk]; exact hq
  · rcases List.mem_append.1 h with hmem | hmem
    · right; exact hmem
    · left; simpa using hmem

theorem pdGet?_pdDrop_ne {V : Type _} (d : List (Spot × V)) (k k' : Spot) (h : k' ≠ k) :
    pdGet? (pdDrop d k) k' = pdGet? d k' := by
  unfold pdDrop pdGet?
  induction d with
  | nil => rfl
  | cons q rest ih =>
      rw [List.filter_cons]
      by_cases hqk : q.1 = k
      · have hq' : ¬ q.1 = k' := by rw [hqk]; exact Ne.symm h
        rw [if_neg (by simp [hqk]), List.find?_cons_of_neg _ (by simp [hq'])]
        exact ih
      · rw [if_pos (by simp [hqk])]
        by_cases hq' : q.1 = k'
        · rw [List.find?_cons_of_pos _ (by simp [hq']),
            List.find?_cons_of_pos _ (by simp [hq'])]
        · rw [List.find?_cons_of_neg _ (by simp [hq']),
            List.find?_cons_of_neg _ (by simp [hq'])]
          exact ih

theorem mem_keys_pdDrop_of_mem {V : Type _} {d : List (Spot × V)} {k x : Spot}
    (hx : x ∈ pdKeys d) (hne : x ≠ k) :
    x ∈ pdKeys (d.filter (fun p => ¬ p.1 = k)) := by
  obtain ⟨q, hq, hqx⟩ := List.mem_map.1 hx
  refine List.mem_map.2 ⟨q, List.mem_filter.2 ⟨hq, ?_⟩, hqx⟩
  simp only [decide_eq_true_eq, decide_not, Bool.not_eq_true']
  simp only [decide_eq_false_iff_not]
  rw [hqx]
  exact hne

theorem pdKeys_resetVision {τ : Type _} (d : List (Spot × τ)) :
    pdKeys (resetVision d) = pdKeys d := by
  unfold resetVision pdKeys
  rw [List.map_map]
  rfl

theorem pdGet?_resetVision_of_mem {τ : Type _} (d : List (Spot × τ)) (k : Spot) :
    k ∈ pdKeys d → pdGet? (resetVision d) k = some k := by
  induction d with
  | nil => intro h; simp [pdKeys] at h
  | cons q rest ih =>
      intro h
      by_cases hq : q.1 = k
      · simp [resetVision, pdGet?, List.find?_cons, hq]
      · have hmem : k ∈ pdKeys rest := by
          rcases List.mem_map.1 h with ⟨p, hp, hpk⟩
          rcases List.mem_cons.1 hp with rfl | hpm
          · exact absurd hpk hq
          · exact List.mem_map.2 ⟨p, hpm, hpk⟩
        simpa [resetVision, pdGet?, List.find?_cons, hq] using ih hmem

theorem mem_resetVision {τ : Type _} {d : List (Spot × τ)} {q : Spot × Spot}
    (h : q ∈ resetVision d) : q.2 = q.1 ∧ q.1 ∈ pdKeys d := by
  unfold resetVision at h
  obtain ⟨p, hp, hpq⟩ := List.mem_map.1 h
  constructor
  · rw [← hpq]
  · rw [← hpq]
    exact List.mem_map.2 ⟨p, hp, rfl⟩

theorem find?_resetVision_none {τ : Type _} (d : List (Spot × τ)) (k : Spot) :
    d.find? (fun p => p.1 = k) = none →
    (resetVision d).find? (fun p => p.1 = k) = none := by
  induction d with
  | nil => intro _; rfl
  | cons q rest ih =>
      intro h
      rw [List.find?_cons] at h
      cases hq : (decide (q.1 = k)) with
      | true => rw [hq] at h; simp at h
      | false =>
          rw [hq] at h
          simpa [resetVision, List.find?_cons, hq] using ih h

theorem pdSet_resetVision_absent {τ : Type _} (d : List (Spot × τ)) (k : Spot) (t : τ)
    (h : pdGet? d k = none) :
    pdSet (resetVision d) k k = resetVision (pdSet d k t) := by
  have hfd : d.find? (fun p => p.1 = k) = none := by
    unfold pdGet? at h
    cases hc : d.find? (fun p => p.1 = k) with
    | none => rfl
    | some q => rw [hc] at h; simp at h
  unfold pdSet
  rw [if_neg (by rw [find?_resetVision_none d k hfd]; simp),
    if_neg (by rw [hfd]; simp)]
  unfold resetVision
  rw [List.map_append]
  rfl

theorem pdDrop_resetVision {τ : Type _} (d : List (Spot × τ)) (k : Spot) :
    pdDrop (resetVision d) k = resetVision (pdDrop d k) := by
  unfold pdDrop resetVision
  induction d with
  | nil => rfl
  | cons q rest ih =>
      rw [List.map_cons, List.filter_cons, List.filter_cons]
      by_cases hqk : q.1 = k
      · rw [if_neg (by simp [hqk]), if_neg (by simp [hqk])]
        exact ih
      · rw [if_pos (by simp [hqk]), if_pos (by simp [hqk])]
        rw [List.map_cons, ih]

theorem setupAssets_snd_mem_keys {τ : Type _} (f : List String → τ → Option ℤ)
    (tiles : List (Spot × τ)) (arg : List String) {x : Spot}
    (h : x ∈ (setupAssets f tiles arg).map (·.2)) : x ∈ pdKeys tiles := by
  rw [setupAssets_map_snd] at h
  obtain ⟨pt, hpt, hx⟩ := List.mem_filterMap.1 h
  refine List.mem_map.2 ⟨pt, hpt, ?_⟩
  by_cases hs : (f arg pt.2).isSome
  · rw [if_pos hs] at hx
    exact Option.some.inj hx
  · rw [if_neg hs] at hx
    exact absurd hx (by simp)

theorem squeezeVision_snd_mem {old : List Spot} {q : Spot × Spot}
    (h : q ∈ squeezeVision old) : q.2 ∈ old := by
  unfold squeezeVision at h
  obtain ⟨cmb, hc, hq⟩ := List.mem_map.1 h
  have := squeeze_spots_fst_mem old cmb hc
  rw [← hq]
  exact this

theorem pdGet?_cons_self {V : Type _} (kv : Spot × V) (rest : List (Spot × V)) :
    pdGet? (kv :: rest) kv.1 = some kv.2 := by
  simp [pdGet?, List.find?_cons]

theorem meshinv_set_point {τ : Type _} {s : MeshState τ} (hinv : MeshInv s) {fin : Spot}
    (hfin : fin ∈ pdKeys s.vision ∨ fin = Mesh.vis_spot s) :
    MeshInv { s with point := fin } := by
  obtain ⟨hwf, hcur, hvals, hid, hcache, hlc⟩ := hinv
  refine ⟨hwf, ?_, hvals, hid, hcache, hlc⟩
  rcases hfin with hmem | heq
  · obtain ⟨v, hv⟩ := pdGet?_isSome_of_mem_keys hmem
    exact ⟨v, hv, hvals (fin, v) (pdGet?_mem hv)⟩
  · show CursorInv { s with point := fin }
    rw [heq]
    exact hcur

theorem mesh_insert_meshinv {τ : Type _} (s : MeshState τ) (spot : Spot)
    (hinv : MeshInv s) (hclean : s.clean = false)
    (r : MeshState τ × Option τ × Option Fault) (hr : Mesh.insert s spot = r)
    (hpy : r.2.2 ≠ some .py) : MeshInv r.1 := by
  obtain ⟨hwf, hcur, hvals, hid, hcache, hlc⟩ := hinv
  obtain ⟨row, cx, hsearch, hcx0, hcxle⟩ := hwf.destructure
  have hline : Mesh.searchLine? s = some row := searchLine?_of_wf hsearch
  simp only [Mesh.insert, hline] at hr
  by_cases hrow : row = []
  · subst hrow
    rw [if_neg (by simp)] at hr
    split at hr
    · rw [← hr]
      exact ⟨hwf, hcur, hvals, hid, hcache, hlc⟩
    · rename_i habs
      split at hr
      · rw [← hr] at hpy
        simp at hpy
      · split at hr
        · rw [hclean] at hr
          simp only [Bool.false_eq_true, if_false] at hr
          rw [← hr]
          exact ⟨hwf, hcur, hvals, hid, hcache, hlc⟩
        · rename_i create hcreate t ht
          rw [hclean] at hr
          simp only [Bool.false_eq_true, if_false] at hr
          rw [← hr]
          have hidv := hid hline
          refine ⟨hwf, ?_, ?_, ?_, ?_, ?_⟩
          · obtain ⟨rs, hrs, hrsk⟩ := hcur
            by_cases hv : Mesh.vis_spot s = spot
            · refine ⟨spot, ?_, mem_keys_pdSet_self _ _ _⟩
              show pdGet? (pdSet s.vision spot spot) (Mesh.vis_spot s) = some spot
              rw [hv]
              exact pdGet?_pdSet_self _ _ _
            · refine ⟨rs, ?_, mem_keys_pdSet_of_mem _ _ _ hrsk⟩
              show pdGet? (pdSet s.vision spot spot) (Mesh.vis_spot s) = some rs
              rw [pdGet?_pdSet_ne _ _ _ _ hv]
              exact hrs
          · intro p hp
            rcases mem_pdSet hp with rfl | hmem
            · exact mem_keys_pdSet_self _ _ _
            · exact mem_keys_pdSet_of_mem _ _ _ (hvals p hmem)
          · intro _
            show pdSet s.vision spot spot = resetVision (pdSet s.tiles spot t)
            rw [hidv]
            exact pdSet_resetVision_absent s.tiles spot t habs
          · intro p hp
            exact mem_keys_pdSet_of_mem _ _ _ (hcache p hp)
          · intro l hl hlne
            have hl' : Mesh.searchLine? s = some l := hl
            rw [hline] at hl'
            exact absurd (Option.some.inj hl').symm hlne
  · rw [if_pos hrow] at hr
    rw [← hr]
    exact ⟨hwf, hcur, hvals, hid, hcache, hlc⟩

theorem mesh_delete_meshinv {τ : Type _} (s : MeshState τ) (spot : Spot)
    (hinv : MeshInv s) (hvs : spot ≠ Mesh.vis_spot s) (hcs : s.cache ≠ some spot)
    (r : MeshState τ × Option τ × Option Fault) (hr : Mesh.delete s spot = r) :
    MeshInv r.1 := by
  obtain ⟨hwf, hcur, hvals, hid, hcache, hlc⟩ := hinv
  obtain ⟨row, cx, hsearch, hcx0, hcxle⟩ := hwf.destructure
  have hline : Mesh.searchLine? s = some row := searchLine?_of_wf hsearch
  simp only [Mesh.delete, hline] at hr
  by_cases hrow : row = []
  · subst hrow
    rw [if_neg (by simp)] at hr
    split at hr
    · rw [← hr]
      exact ⟨hwf, hcur, hvals, hid, hcache, hlc⟩
    · rename_i pr hpop
      have hpr : pr = s.tiles.filter (fun p => ¬ p.1 = spot) := by
        unfold pdPop at hpop
        cases hg : pdGet? s.tiles spot with
        | none => rw [hg] at hpop; simp at hpop
        | some v =>
            rw [hg] at hpop
            simp only [Option.some.injEq, Prod.mk.injEq] at hpop
            exact hpop.2.symm
      subst hpr
      have hidv := hid hline
      rw [← hr]
      refine ⟨hwf, ?_, ?_, ?_, ?_, ?_⟩
      · obtain ⟨rs, hrs, _⟩ := hcur
        have hmem := pdGet?_mem hrs
        have hrv : rs = Mesh.vis_spot s := by
          simpa using (mem_resetVision (hidv ▸ hmem)).1
        have hviskeys : Mesh.vis_spot s ∈ pdKeys s.tiles := by
          simpa using (mem_resetVision (hidv ▸ hmem)).2
        refine ⟨Mesh.vis_spot s, ?_, ?_⟩
        · show pdGet? (pdDrop s.vision spot) (Mesh.vis_spot s) = some (Mesh.vis_spot s)
          rw [pdGet?_pdDrop_ne _ _ _ (Ne.symm hvs), hrs, hrv]
        · exact mem_keys_pdDrop_of_mem hviskeys (Ne.symm hvs)
      · intro p hp
        have hp' := List.mem_of_mem_filter hp
        have h21 := mem_resetVision (hidv ▸ hp')
        have hkey : p.1 ≠ spot := by
          have := List.of_mem_filter hp
          simpa using this
        rw [h21.1]
        exact mem_keys_pdDrop_of_mem h21.2 hkey
      · intro _
        show pdDrop s.vision spot = resetVision (s.tiles.filter (fun p => ¬ p.1 = spot))
        rw [hidv]
        exact pdDrop_resetVision s.tiles spot
      · intro p hp
        have hpne : p ≠ spot := fun he => hcs (by rw [← he]; exact hp)
        exact mem_keys_pdDrop_of_mem (hcache p hp) hpne
      · intro l hl hlne
        have hl' : Mesh.searchLine? s = some l := hl
        rw [hline] at hl'
        exact absurd (Option.some.inj hl').symm hlne
  · rw [if_pos hrow] at hr
    rw [← hr]
    exact ⟨hwf, hcur, hvals, hid, hcache, hlc⟩

theorem mesh_move_meshinv {τ : Type _} (geo : Geometry) (s : MeshState τ) (d : ℤ)
    (hinv : MeshInv s) (hclean : s.clean = false)
    (r : MeshState τ × Option Fault) (hr : Mesh.move geo s d = r) : MeshInv r.1 := by
  simp only [Mesh.move] at hr
  split at hr
  · rw [← hr]; exact hinv
  · rename_i l heq
    by_cases hl : l = []
    · subst hl
      rw [if_pos rfl] at hr
      cases hcreate : s.create with
      | none =>
          rw [hcreate] at hr
          simp only at hr
          cases hscout : s.scout with
          | none =>
              rw [hscout] at hr
              simp only at hr
              split at hr
              · split at hr
                · rw [← hr]; exact hinv
                · rw [← hr]
                  refine meshinv_set_point hinv ?_
                  rcases geo.pick_mem true (Mesh.vis_spot s) (reverse_direction d)
                    (pdKeys s.vision) with hm | ho
                  · exact Or.inl hm
                  · exact Or.inr ho
              · rename_i hfin
                rw [← hr]
                refine meshinv_set_point hinv ?_
                rcases geo.pick_mem false (Mesh.vis_spot s) d (pdKeys s.vision) with hm | ho
                · exact Or.inl hm
                · exact absurd ho hfin
          | some sc =>
              rw [hscout] at hr
              simp only at hr
              split at hr
              · split at hr
                · rw [← hr]; exact hinv
                · rw [← hr]
                  refine meshinv_set_point hinv ?_
                  rcases geo.pick_mem true (Mesh.vis_spot s) (reverse_direction d)
                    ((pdKeys s.vision).filter sc) with hm | ho
                  · exact Or.inl (List.mem_of_mem_filter hm)
                  · exact Or.inr ho
              · rename_i hfin
                rw [← hr]
                refine meshinv_set_point hinv ?_
                rcases geo.pick_mem false (Mesh.vis_spot s) d
                  ((pdKeys s.vision).filter sc) with hm | ho
                · exact Or.inl (List.mem_of_mem_filter hm)
                · exact absurd ho hfin
      | some c =>
          rw [hcreate] at hr
          simp only at hr
          by_cases hmem : (pdGet? s.tiles (geo.next (Mesh.vis_spot s) d 1)).isSome
          · rw [if_pos hmem] at hr
            simp only at hr
            cases hscout : s.scout with
            | none =>
                rw [hscout] at hr
                simp only at hr
                split at hr
                · split at hr
                  · rw [← hr]; exact hinv
                  · rw [← hr]
                    refine meshinv_set_point hinv ?_
                    rcases geo.pick_mem true (Mesh.vis_spot s) (reverse_direction d)
                      (pdKeys s.vision) with hm | ho
                    · exact Or.inl hm
                    · exact Or.inr ho
                · rename_i hfin
                  rw [← hr]
                  refine meshinv_set_point hinv ?_
                  rcases geo.pick_mem false (Mesh.vis_spot s) d (pdKeys s.vision) with hm | ho
                  · exact Or.inl hm
                  · exact absurd ho hfin
            | some sc =>
                rw [hscout] at hr
                simp only at hr
                split at hr
                · split at hr
                  · rw [← hr]; exact hinv
                  · rw [← hr]
                    refine meshinv_set_point hinv ?_
                    rcases geo.pick_mem true (Mesh.vis_spot s) (reverse_direction d)
                      ((pdKeys s.vision).filter sc) with hm | ho
                    · exact Or.inl (List.mem_of_mem_filter hm)
                    · exact Or.inr ho
                · rename_i hfin
                  rw [← hr]
                  refine meshinv_set_point hinv ?_
                  rcases geo.pick_mem false (Mesh.vis_spot s) d
                    ((pdKeys s.vision).filter sc) with hm | ho
                  · exact Or.inl (List.mem_of_mem_filter hm)
                  · exact absurd ho hfin
          · rw [if_neg hmem] at hr
            have habs : pdGet? s.tiles (geo.next (Mesh.vis_spot s) d 1) = none :=
              Option.not_isSome_iff_eq_none.1 hmem
            cases hts : c (geo.next (Mesh.vis_spot s) d 1) with
            | none =>
                have hins : Mesh.insert s (geo.next (Mesh.vis_spot s) d 1) = (s, none, none) := by
                  simp [Mesh.insert, heq, habs, hcreate, hts, hclean]
                  rw [← hcreate, ← hclean]
                rw [hins] at hr
                simp only at hr
                cases hscout : s.scout with
                | none =>
                    rw [hscout] at hr
                    simp only at hr
                    split at hr
                    · split at hr
                      · rw [← hr]; exact hinv
                      · rw [← hr]
                        refine meshinv_set_point hinv ?_
                        rcases geo.pick_mem true (Mesh.vis_spot s) (reverse_direction d)
                          (pdKeys s.vision) with hm | ho
                        · exact Or.inl hm
                        · exact Or.inr ho
                    · rename_i hfin
                      rw [← hr]
                      refine meshinv_set_point hinv ?_
                      rcases geo.pick_mem false (Mesh.vis_spot s) d (pdKeys s.vision) with hm | ho
                      · exact Or.inl hm
                      · exact absurd ho hfin
                | some sc =>
                    rw [hscout] at hr
                    simp only at hr
                    split at hr
                    · split at hr
                      · rw [← hr]; exact hinv
                      · rw [← hr]
                        refine meshinv_set_point hinv ?_
                        rcases geo.pick_mem true (Mesh.vis_spot s) (reverse_direction d)
                          ((pdKeys s.vision).filter sc) with hm | ho
                        · exact Or.inl (List.mem_of_mem_filter hm)
                        · exact Or.inr ho
                    · rename_i hfin
                      rw [← hr]
                      refine meshinv_set_point hinv ?_
                      rcases geo.pick_mem false (Mesh.vis_spot s) d
                        ((pdKeys s.vision).filter sc) with hm | ho
                      · exact Or.inl (List.mem_of_mem_filter hm)
                      · exact absurd ho hfin
            | some tv =>
                have hins : Mesh.insert s (geo.next (Mesh.vis_spot s) d 1)
                    = ({ s with
                          tiles := pdSet s.tiles (geo.next (Mesh.vis_spot s) d 1) tv
                          vision := pdSet s.vision (geo.next (Mesh.vis_spot s) d 1)
                            (geo.next (Mesh.vis_spot s) d 1) },
                        some tv, none) := by
                  simp [Mesh.insert, heq, habs, hcreate, hts, hclean]
                rw [hins] at hr
                simp only at hr
                rw [← hr]
                have hinsinv := mesh_insert_meshinv s (geo.next (Mesh.vis_spot s) d 1)
                  hinv hclean _ hins (by simp)
                exact meshinv_set_point hinsinv
                  (Or.inl (mem_keys_pdSet_self s.vision _ _))
    · rw [if_neg hl] at hr
      simp only at hr
      cases hscout : s.scout with
      | none =>
          rw [hscout] at hr
          simp only at hr
          split at hr
          · split at hr
            · rw [← hr]; exact hinv
            · rw [← hr]
              refine meshinv_set_point hinv ?_
              rcases geo.pick_mem true (Mesh.vis_spot s) (reverse_direction d)
                (pdKeys s.vision) with hm | ho
              · exact Or.inl hm
              · exact Or.inr ho
          · rename_i hfin
            rw [← hr]
            refine meshinv_set_point hinv ?_
            rcases geo.pick_mem false (Mesh.vis_spot s) d (pdKeys s.vision) with hm | ho
            · exact Or.inl hm
            · exact absurd ho hfin
      | some sc =>
          rw [hscout] at hr
          simp only at hr
          split at hr
          · split at hr
            · rw [← hr]; exact hinv
            · rw [← hr]
              refine meshinv_set_point hinv ?_
              rcases geo.pick_mem true (Mesh.vis_spot s) (reverse_direction d)
                ((pdKeys s.vision).filter sc) with hm | ho
              · exact Or.inl (List.mem_of_mem_filter hm)
              · exact Or.inr ho
          · rename_i hfin
            rw [← hr]
            refine meshinv_set_point hinv ?_
            rcases geo.pick_mem false (Mesh.vis_spot s) d
              ((pdKeys s.vision).filter sc) with hm | ho
            · exact Or.inl (List.mem_of_mem_filter hm)
            · exact absurd ho hfin

theorem search_execute_actfault_meshinv {τ : Type _} (s : MeshState τ)
    (act : TextState → TextState × Option Fault) (hinv : MeshInv s)
    (e : MErr) (hactf : act s.search = (s.search, some (.mutate e)))
    (r : MeshState τ × Option Fault) (hr : Mesh.search_execute s act = r) :
    MeshInv r.1 := by
  obtain ⟨row, cx, hsearch, hcx0, hcxle⟩ := hinv.1.destructure
  have hline := searchLine?_of_wf hsearch
  cases hscore : s.score with
  | none =>
      simp only [Mesh.search_execute, hscore] at hr
      rw [← hr]
      exact hinv
  | some score =>
      simp only [Mesh.search_execute, hscore, hline, hactf] at hr
      rw [← hr]
      exact hinv

theorem search_execute_meshinv {τ : Type _} (s : MeshState τ)
    (act : TextState → TextState × Option Fault)
    (hinv : MeshInv s)
    (t' : TextState)
    (hactok : act s.search = (t', none))
    (hlen1 : t'.lines.length = 1) (hpt0 : t'.point.1 = 0) (hvalid : TextValid t')
    (r : MeshState τ × Option Fault) (hr : Mesh.search_execute s act = r)
    (hpy : r.2 ≠ some Fault.py) : MeshInv r.1 := by
  obtain ⟨hwf, hcur, hvals, hid, hcache, hlc⟩ := hinv
  have hinv' : MeshInv s := ⟨hwf, hcur, hvals, hid, hcache, hlc⟩
  obtain ⟨row, cx, hsearch, hcx0, hcxle⟩ := hwf.destructure
  have hline := searchLine?_of_wf hsearch
  cases hscore : s.score with
  | none =>
      simp only [Mesh.search_execute, hscore] at hr
      rw [← hr]
      exact hinv'
  | some score =>
      obtain ⟨row', hrow'⟩ := List.length_eq_one.1 hlen1
      have hpost : pyGet t'.lines s.search.point.1 = some row' := by
        rw [hsearch, hrow']
        rfl
      simp only [Mesh.search_execute, hscore, hline, hactok] at hr
      rw [hpost] at hr
      simp only at hr
      have hptkeys : s.cache = none → s.point ∈ pdKeys s.tiles := by
        intro hcn
        have hrow0 : row = [] := by
          by_contra hrne
          exact hlc row hline hrne hcn
        have hidv : s.vision = resetVision s.tiles := hid (by rw [← hrow0]; exact hline)
        obtain ⟨rs, hrs, _⟩ := hcur
        have hmem := pdGet?_mem hrs
        have hv := mem_resetVision (hidv ▸ hmem)
        simpa [Mesh.vis_spot] using hv.2
      have hcache' : ∀ p : ℤ × ℤ,
          (if s.cache.isNone then some s.point else s.cache) = some p →
          p ∈ pdKeys s.tiles := by
        intro p hp
        cases hcn : s.cache with
        | none =>
            rw [hcn] at hp
            simp at hp
            rw [← hp]
            exact hptkeys hcn
        | some q =>
            rw [hcn] at hp
            simp at hp
            rw [← hp]
            exact hcache q hcn
      have hc'ne : (if s.cache.isNone then some s.point else s.cache) ≠ none := by
        cases hcn : s.cache <;> simp [hcn]
      split at hr
      · rename_i hne
        split at hr
        · rw [← hr]
          exact ⟨hwf, hcur, hvals, hid, hcache', fun l hl hlne => hc'ne⟩
        · split at hr
          · rw [← hr]
            exact ⟨hwf, hcur, hvals, hid, hcache', fun l hl hlne => hc'ne⟩
          · split at hr
            · rw [← hr] at hpy
              simp at hpy
            · rename_i kv hhead
              rw [← hr]
              have hold : ∀ x ∈ (sortDesc (setupAssets score s.tiles row')).map (·.2),
                  x ∈ pdKeys s.tiles := fun x hx =>
                setupAssets_snd_mem_keys score s.tiles row'
                  ((sortDesc_map_snd_mem _ x).1 hx)
              have hsqmem : ∀ q ∈ squeezeVision
                  ((sortDesc (setupAssets score s.tiles row')).map (·.2)),
                  q.2 ∈ pdKeys s.tiles := fun q hq => hold _ (squeezeVision_snd_mem hq)
              obtain ⟨rest, hsq⟩ : ∃ rest, squeezeVision
                  ((sortDesc (setupAssets score s.tiles row')).map (·.2)) = kv :: rest := by
                cases hc : squeezeVision
                    ((sortDesc (setupAssets score s.tiles row')).map (·.2)) with
                | nil => rw [hc] at hhead; simp at hhead
                | cons q0 rest =>
                    rw [hc] at hhead
                    have hq0 : q0 = kv := by simpa using hhead
                    exact ⟨rest, by rw [← hq0]⟩
              have hkv : kv ∈ squeezeVision
                  ((sortDesc (setupAssets score s.tiles row')).map (·.2)) := by
                rw [hsq]
                exact List.mem_cons_self _ _
              refine ⟨⟨hlen1, hpt0, hvalid⟩, ?_, ?_, ?_, hcache', fun l hl hlne => hc'ne⟩
              · refine ⟨kv.2, ?_, hsqmem kv hkv⟩
                show pdGet? (squeezeVision
                  ((sortDesc (setupAssets score s.tiles row')).map (·.2))) kv.1 = some kv.2
                rw [hsq]
                exact pdGet?_cons_self kv rest
              · intro q hq
                exact hsqmem q hq
              · intro hl4
                have hl4' : pyGet t'.lines t'.point.1 = some [] := hl4
                rw [hrow', hpt0] at hl4'
                have hrfl : pyGet [row'] (0 : ℤ) = some row' := rfl
                rw [hrfl] at hl4'
                exact absurd (Option.some.inj hl4') hne
      · rename_i hne
        have hrow'nil : row' = [] := not_not.1 hne
        cases hcn : s.cache with
        | none =>
            rw [hcn] at hr
            simp only at hr
            rw [← hr] at hpy
            simp at hpy
        | some p =>
            rw [hcn] at hr
            simp only at hr
            rw [← hr]
            have hpk := hcache p hcn
            refine ⟨⟨hlen1, hpt0, hvalid⟩, ?_, ?_, ?_, ?_, ?_⟩
            · refine ⟨p, ?_, hpk⟩
              show pdGet? (resetVision s.tiles) p = some p
              exact pdGet?_resetVision_of_mem s.tiles p hpk
            · intro q hq
              have hm := mem_resetVision hq
              rw [hm.1]
              exact hm.2
            · intro _
              rfl
            · intro q hq
              exact absurd hq (by simp)
            · intro l hl hlne
              have hl' : pyGet t'.lines t'.point.1 = some l := hl
              rw [hrow', hpt0] at hl'
              have hrfl : pyGet [row'] (0 : ℤ) = some row' := rfl
              rw [hrfl] at hl'
              have : l = row' := (Option.some.inj hl').symm
              rw [this, hrow'nil] at hlne
              exact absurd rfl hlne

theorem pySliceSet_nil_length_ge {α : Type _} (l : List α) (a b : ℤ)
    (h0 : 0 ≤ a) (hle : a ≤ (l.length : ℤ)) :
    a ≤ ((pySliceSet l a b []).length : ℤ) := by
  unfold pySliceSet pySliceIx
  rw [if_neg (by omega : ¬ a < 0)]
  simp only [List.length_append, List.length_take, List.length_drop, List.length_nil]
  by_cases hb : b < 0
  · rw [if_pos hb]
    push_cast
    omega
  · rw [if_neg hb]
    push_cast
    omega

def c4state : MeshState Unit :=
  { score := none, scout := none, rigid := false, create := none, clean := false,
    tiles := [(((0 : ℤ), (0 : ℤ)), ())],
    vision := [(((0 : ℤ), (0 : ℤ)), ((0 : ℤ), (0 : ℤ)))],
    search := ⟨[[]], (0, 0)⟩, cache := none, point := (0, 0) }

/-- Counterexample to C4 as stated: deleting the tile under the cursor
returns normally yet leaves the cursor's visible spot without a vision
entry, so the claimed invariant is not preserved by `delete` without a
side condition. -/
theorem mesh_invariant_counterexample :
    CursorInv c4state
    ∧ (Mesh.delete c4state ((0 : ℤ), (0 : ℤ))).2.2 = none
    ∧ ¬ CursorInv (Mesh.delete c4state ((0 : ℤ), (0 : ℤ))).1 := by
  refine ⟨⟨((0 : ℤ), (0 : ℤ)), rfl, by decide⟩, rfl, ?_⟩
  rintro ⟨rs, hrs, -⟩
  have hnone : pdGet? (Mesh.delete c4state ((0 : ℤ), (0 : ℤ))).1.vision
      (Mesh.vis_spot (Mesh.delete c4state ((0 : ℤ), (0 : ℤ))).1) = none := rfl
  rw [hnone] at hrs
  exact Option.noConfusion hrs

/-- Claim C4 (amended) — invariant preservation: on a mesh satisfying the
strengthened reachable-state invariant `MeshInv` (which contains the
claim's cursor/vision/tiles condition `CursorInv`) and not in `clean`
mode, every operation that returns normally or with a `MutateError`
re-establishes `MeshInv` — for `delete` under the side conditions that the
deleted spot is not the cursor's visible spot and is not the cached
pre-search point.  As stated the claim is false for `delete` of the
cursor's own spot (see the counterexample). -/
theorem mesh_invariant_preservation {τ : Type _} (geo : Geometry) (s : MeshState τ)
    (spot : Spot) (runes : List String) (size d : ℤ)
    (hinv : MeshInv s) (hclean : s.clean = false) :
    ((Mesh.insert s spot).2.2 ≠ some Fault.py → MeshInv (Mesh.insert s spot).1)
    ∧ (spot ≠ Mesh.vis_spot s → s.cache ≠ some spot → MeshInv (Mesh.delete s spot).1)
    ∧ MeshInv (Mesh.move geo s d).1
    ∧ ((Mesh.search_insert s runes).2 ≠ some Fault.py →
        MeshInv (Mesh.search_insert s runes).1)
    ∧ ((Mesh.search_delete s size).2 ≠ some Fault.py →
        MeshInv (Mesh.search_delete s size).1) := by
  obtain ⟨row, cx, hsearch, hcx0, hcxle⟩ := hinv.1.destructure
  refine ⟨fun hpy => mesh_insert_meshinv s spot hinv hclean _ rfl hpy,
    fun hvs hcs => mesh_delete_meshinv s spot hinv hvs hcs _ rfl,
    mesh_move_meshinv geo s d hinv hclean _ rfl,
    fun hpy => ?_, fun hpy => ?_⟩
  · have hlen := pySliceSet_insert_length row cx runes hcx0 hcxle
    refine search_execute_meshinv s _ hinv
      ⟨[pySliceSet row cx cx runes], (0, cx + runes.length)⟩ ?_ rfl rfl ?_ _ rfl hpy
    · rw [hsearch]
      exact search_insert_act_ok row cx runes hcx0 hcxle
    · refine ⟨le_refl 0, by norm_num, by show (0 : ℤ) ≤ cx + (runes.length : ℤ); omega, ?_⟩
      show cx + (runes.length : ℤ) ≤ ((pySliceSet row cx cx runes).length : ℤ)
      rw [hlen]
      push_cast
      omega
  · rcases search_delete_act_cases row cx size hcx0 hcxle with ⟨hc, hcase⟩ | ⟨hc, hcase⟩
    · refine search_execute_actfault_meshinv s _ hinv .insufficient_x_space ?_ _ rfl
      rw [hsearch]
      exact hcase
    · have hlenge := pySliceSet_nil_length_ge row (cx - size) ((cx - size) + size) hc.1 hc.2
      refine search_execute_meshinv s _ hinv
        ⟨[pySliceSet row (cx - size) ((cx - size) + size) []], (0, cx - size)⟩
        ?_ rfl rfl ?_ _ rfl hpy
      · rw [hsearch]
        exact hcase
      · refine ⟨le_refl 0, by norm_num, hc.1, ?_⟩
        show cx - size ≤ ((pySliceSet row (cx - size) ((cx - size) + size) []).length : ℤ)
        exact hlenge

def c4wstate : MeshState Unit :=
  { score := none, scout := none, rigid := false,
    create := some (fun _ => some ()), clean := false,
    tiles := [(((0 : ℤ), (0 : ℤ)), ())],
    vision := [(((0 : ℤ), (0 : ℤ)), ((0 : ℤ), (0 : ℤ)))],
    search := ⟨[[]], (0, 0)⟩, cache := none, point := (0, 0) }

theorem c4wstate_inv : MeshInv c4wstate := by
  refine ⟨⟨rfl, rfl, by decide⟩, ⟨((0 : ℤ), (0 : ℤ)), rfl, by decide⟩, by decide,
    fun _ => rfl, fun p hp => Option.noConfusion hp, ?_⟩
  intro l hl hlne
  injection hl with h
  exact absurd h.symm hlne

/-- Witness for the amended C4 at a concrete one-tile mesh: inserting a new
tile at (1, 1) preserves the invariant. -/
theorem mesh_invariant_preservation_witness :
    MeshInv c4wstate ∧ MeshInv (Mesh.insert c4wstate ((1 : ℤ), (1 : ℤ))).1 := by
  refine ⟨c4wstate_inv,
    (mesh_invariant_preservation geo0 c4wstate ((1 : ℤ), (1 : ℤ)) [] 0 0
      c4wstate_inv rfl).1 ?_⟩
  intro h
  rw [show (Mesh.insert c4wstate ((1 : ℤ), (1 : ℤ))).2.2 = none from rfl] at h
  exact Option.noConfusion h

/-- Claim C10 — deleting an absent spot is a silent no-op: with no active
search and a spot that is not a tiles key, `delete` returns `None`, raises
nothing, and leaves the whole state (tiles, vision, cursor) unchanged. -/
theorem mesh_delete_absent_noop {τ : Type _} (s : MeshState τ) (spot : Spot)
    (hline : Mesh.searchLine? s = some [])
    (habsent : pdGet? s.tiles spot = none) :
    Mesh.delete s spot = (s, none, none) := by
  simp only [Mesh.delete, hline, pdPop, habsent]
  simp

/-- Concrete mesh for the C10 witness: one tile at the origin, no search. -/
def c10state : MeshState Unit :=
  { score := none, scout := none, rigid := false, create := none, clean := false,
    tiles := [(((0 : ℤ), (0 : ℤ)), ())],
    vision := [(((0 : ℤ), (0 : ℤ)), ((0 : ℤ), (0 : ℤ)))],
    search := ⟨[[]], (0, 0)⟩, cache := none, point := (0, 0) }

/-- Witness for C10 at a concrete mesh and the absent spot (1, 1). -/
theorem mesh_delete_absent_noop_witness :
    Mesh.delete c10state ((1 : ℤ), (1 : ℤ)) = (c10state, none, none) :=
  mesh_delete_absent_noop c10state (1, 1) rfl rfl

/-- Claim C8 (amended) — clean-mode insert with no active search: an
existing tile is returned with everything unchanged; at an absent spot the
creator is invoked and `tiles`/`vision` are cleared *before* its result is
examined, so a creator returning `None` leaves both empty, while a created
tile leaves exactly the new tile and its identity vision entry. -/
theorem mesh_insert_clean_effect {τ : Type _} (s : MeshState τ) (spot : Spot)
    (f : Spot → Option τ)
    (hclean : s.clean = true)
    (hline : Mesh.searchLine? s = some [])
    (hcreate : s.create = some f) :
    (∀ t, pdGet? s.tiles spot = some t → Mesh.insert s spot = (s, some t, none))
    ∧ (pdGet? s.tiles spot = none → f spot = none →
        Mesh.insert s spot = ({ s with tiles := [], vision := [] }, none, none))
    ∧ (∀ t, pdGet? s.tiles spot = none → f spot = some t →
        Mesh.insert s spot
          = ({ s with tiles := [(spot, t)], vision := [(spot, spot)] }, some t, none)) := by
  refine ⟨?_, ?_, ?_⟩
  · intro t hget
    simp [Mesh.insert, hline, hget]
  · intro hget hnone
    simp [Mesh.insert, hline, hget, hcreate, hnone, hclean]
  · intro t hget hsome
    simp [Mesh.insert, hline, hget, hcreate, hsome, hclean, pdSet]

/-- Concrete clean-mode mesh whose creator declines every spot. -/
def c8state : MeshState Unit :=
  { score := none, scout := none, rigid := false,
    create := some (fun _ => none), clean := true,
    tiles := [(((0 : ℤ), (0 : ℤ)), ())],
    vision := [(((0 : ℤ), (0 : ℤ)), ((0 : ℤ), (0 : ℤ)))],
    search := ⟨[[]], (0, 0)⟩, cache := none, point := (0, 0) }

/-- Counterexample to C8 as stated: the creator returns `None` at spot
(1, 1), yet `tiles` is cleared (and no exception is raised) instead of
being left unchanged. -/
theorem mesh_insert_clean_counterexample :
    (Mesh.insert c8state ((1 : ℤ), (1 : ℤ))).1.tiles = ([] : List (Spot × Unit))
    ∧ c8state.tiles = [(((0 : ℤ), (0 : ℤ)), ())]
    ∧ (Mesh.insert c8state ((1 : ℤ), (1 : ℤ))).2.2 = none := by
  refine ⟨rfl, rfl, rfl⟩

/-- Witness for the amended C8: at the concrete clean mesh, inserting at an
absent spot with a declining creator leaves tiles and vision empty. -/
theorem mesh_insert_clean_effect_witness :
    Mesh.insert c8state ((5 : ℤ), (5 : ℤ))
      = ({ c8state with tiles := [], vision := [] }, none, none) :=
  (mesh_insert_clean_effect c8state (5, 5) (fun _ => none) rfl rfl rfl).2.1 rfl rfl

end Survey
